import Mathlib

/-!
Verification development for the `humn` reactive UI runtime.

Shallow embedding of the runtime's core subsystems, translated from the
JavaScript sources:
  * `packages/humn/src/cortex.js`  — state container ("Cortex")
  * `src/cortex.js`                — earlier state-container variant
  * `packages/humn/src/persist.js` — persisted-field markers
  * `packages/humn/src/h.js`       — render-node constructor
  * `src/lifecycle.js`, `observer.js` — lifecycle hooks / dependency registry
  * `src/patch.js`                 — reconciler (virtual-tree diff / patch)

Modelling conventions:
  * JS objects holding data are association lists `List (String × _)`
    preserving insertion order (JS object spread / `Map` iteration order).
  * Dot-delimited path strings (`"a.b"`) are segment lists `List String`
    (`["a","b"]`); `startsWith (p + ".")` becomes strict segment-prefix.
    Field names are assumed dot-free, which the repository relies on.
  * Host effects (localStorage, JSON.parse, JSON.stringify) are oracle
    parameters returning `Except Unit _`; a JS `try`/`catch` becomes a
    `match` on the `Except` at exactly the place the source catches.
  * Functions are total; a JS execution path that throws *uncaught*
    (e.g. writing a property of a primitive through the change-tracking
    proxy) is modelled by an `Option`-failure of the operation.
-/

namespace Humn

/-- JSON-serializable memory values (the Cortex "memory" tree).
JS arrays and functions do not occur in the claims under study and are
omitted; `null` is JS `null`. -/
inductive JVal where
  | str (s : String)
  | num (n : Int)
  | bool (b : Bool)
  | null
  | obj (fields : List (String × JVal))
deriving Repr

mutual

def JVal.beq : JVal → JVal → Bool
  | .str a, .str b => a == b
  | .num a, .num b => a == b
  | .bool a, .bool b => a == b
  | .null, .null => true
  | .obj a, .obj b => JVal.beqFields a b
  | _, _ => false

def JVal.beqFields : List (String × JVal) → List (String × JVal) → Bool
  | [], [] => true
  | (k, v) :: as, (k', v') :: bs => k == k' && JVal.beq v v' && JVal.beqFields as bs
  | _, _ => false

end

mutual

theorem JVal.beq_refl : (v : JVal) → JVal.beq v v = true
  | .str s => by simp [JVal.beq]
  | .num n => by simp [JVal.beq]
  | .bool b => by simp [JVal.beq]
  | .null => by simp [JVal.beq]
  | .obj fields => by simp only [JVal.beq]; exact JVal.beqFields_refl fields

theorem JVal.beqFields_refl : (l : List (String × JVal)) → JVal.beqFields l l = true
  | [] => by simp [JVal.beqFields]
  | (k, v) :: rest => by
      simp [JVal.beqFields, JVal.beq_refl v, JVal.beqFields_refl rest]

end

mutual

theorem JVal.eq_of_beq : {a b : JVal} → JVal.beq a b = true → a = b
  | .str _, .str _, h => by simp only [JVal.beq, beq_iff_eq] at h; rw [h]
  | .num _, .num _, h => by simp only [JVal.beq, beq_iff_eq] at h; rw [h]
  | .bool _, .bool _, h => by simp only [JVal.beq, beq_iff_eq] at h; rw [h]
  | .null, .null, _ => rfl
  | .obj a, .obj b, h => by
      simp only [JVal.beq] at h
      rw [JVal.eqFields_of_beq h]
  | .str _, .num _, h => by simp [JVal.beq] at h
  | .str _, .bool _, h => by simp [JVal.beq] at h
  | .str _, .null, h => by simp [JVal.beq] at h
  | .str _, .obj _, h => by simp [JVal.beq] at h
  | .num _, .str _, h => by simp [JVal.beq] at h
  | .num _, .bool _, h => by simp [JVal.beq] at h
  | .num _, .null, h => by simp [JVal.beq] at h
  | .num _, .obj _, h => by simp [JVal.beq] at h
  | .bool _, .str _, h => by simp [JVal.beq] at h
  | .bool _, .num _, h => by simp [JVal.beq] at h
  | .bool _, .null, h => by simp [JVal.beq] at h
  | .bool _, .obj _, h => by simp [JVal.beq] at h
  | .null, .str _, h => by simp [JVal.beq] at h
  | .null, .num _, h => by simp [JVal.beq] at h
  | .null, .bool _, h => by simp [JVal.beq] at h
  | .null, .obj _, h => by simp [JVal.beq] at h
  | .obj _, .str _, h => by simp [JVal.beq] at h
  | .obj _, .num _, h => by simp [JVal.beq] at h
  | .obj _, .bool _, h => by simp [JVal.beq] at h
  | .obj _, .null, h => by simp [JVal.beq] at h

theorem JVal.eqFields_of_beq :
    {a b : List (String × JVal)} → JVal.beqFields a b = true → a = b
  | [], [], _ => rfl
  | (k, v) :: as, (k', v') :: bs, h => by
      simp only [JVal.beqFields, Bool.and_eq_true, beq_iff_eq] at h
      obtain ⟨⟨hk, hv⟩, hrest⟩ := h
      rw [hk, JVal.eq_of_beq hv, JVal.eqFields_of_beq hrest]
  | [], _ :: _, h => by simp [JVal.beqFields] at h
  | _ :: _, [], h => by simp [JVal.beqFields] at h

end

instance : BEq JVal := ⟨JVal.beq⟩

instance : DecidableEq JVal := fun a b =>
  if h : JVal.beq a b then .isTrue (JVal.eq_of_beq h)
  else .isFalse (fun he => h (he ▸ JVal.beq_refl a))

instance : LawfulBEq JVal where
  eq_of_beq := JVal.eq_of_beq
  rfl := JVal.beq_refl _

/-- A JS object used as memory: ordered association list. -/
abbrev JObj := List (String × JVal)

/-- A dot-delimited state path, as its list of segments. -/
abbrev Path := List String

/-! ## Association-list primitives (JS object semantics) -/

/-- `obj[k]` — property lookup; `none` models JS `undefined`. -/
def jget (o : JObj) (k : String) : Option JVal := o.lookup k

/-- `obj[k] = v` — in-place property assignment: an existing key keeps its
position, a new key is appended (JS property-insertion order). -/
def jset (o : JObj) (k : String) (v : JVal) : JObj :=
  if o.any (fun kv => kv.1 = k) then
    o.map (fun kv => if kv.1 = k then (k, v) else kv)
  else o ++ [(k, v)]

/-- `{ ...a, ...b }` — shallow merge: `a`'s keys in order (overridden by
`b` where present), then `b`'s keys that are new, in order. -/
def shallowMerge (a b : JObj) : JObj :=
  a.map (fun kv => match jget b kv.1 with
    | some v => (kv.1, v)
    | none => kv)
  ++ b.filter (fun kv => (jget a kv.1).isNone)

/-- `Object.keys` of an association list. -/
def jkeys (o : JObj) : List String := o.map Prod.fst

/-! ## Paths -/

/-- JS `Set.add`: append if not already present (insertion order kept). -/
def addPath (ps : List Path) (p : Path) : List Path :=
  if p ∈ ps then ps else ps ++ [p]

/-- The relevance test of `_notifyRelevantListeners` (both cortex files):
`accessedPath === changedPath || accessedPath.startsWith(changedPath + '.')
|| changedPath.startsWith(accessedPath + '.')`, on segment lists. -/
def pathRelates (accessedPath changedPath : Path) : Bool :=
  accessedPath = changedPath
    || changedPath.length < accessedPath.length
        && changedPath.isPrefixOf accessedPath
    || accessedPath.length < changedPath.length
        && accessedPath.isPrefixOf changedPath

/-- `path === stateKey || path.startsWith(stateKey + '.')`
(the persistence dirty check), on segment lists. -/
def pathHitsKey (p : Path) (stateKey : String) : Bool :=
  p = [stateKey] || [stateKey].isPrefixOf p

/-! ## Cortex state (`packages/humn/src/cortex.js`) -/

/-- One field of the `memory` constructor argument: either a raw value or
a persisted marker `{ __humn_persist: true, initial, config }` as built
by `persist(initial, config)` in `packages/humn/src/persist.js`.
`configKey` is `config.key` (absent ⇒ `undefined`). -/
inductive MemEntry where
  | plain (v : JVal)
  | persisted (initial : JVal) (configKey : Option String)
deriving Repr, DecidableEq

/-- The mutable state of one Cortex instance. `listeners` is the
`Map renderFn ↦ Set accessedPaths` (render closures are identified by
`Nat` tokens); `persistenceMap` maps state key to storage key. -/
structure CortexState where
  memory : JObj
  listeners : List (Nat × List Path)
  persistenceMap : List (String × String)
deriving Repr, DecidableEq

/-- Host-storage / JSON oracles. `getItem` is `localStorage.getItem`
(`.error` = the call threw), `parse` is `JSON.parse`, `setItem` is
`localStorage.setItem`, `stringify` is `JSON.stringify` applied to the
possibly-`undefined` field value. -/
structure StorageOracle where
  getItem : String → Except Unit (Option String)
  parse : String → Except Unit JVal
  setItem : String → String → Except Unit Unit
  stringify : Option JVal → String

/-- `value.config?.key || key` — JS falsy-or: an absent or empty
`config.key` falls back to the field name. -/
def storageKeyOf (fieldKey : String) (configKey : Option String) : String :=
  match configKey with
  | some k => if k = "" then fieldKey else k
  | none => fieldKey

/-- The persisted-field load of the Cortex constructor
(`packages/humn/src/cortex.js`, the `try { ... } catch` around
`localStorage.getItem` + `JSON.parse`):

```js
try {
  const stored = localStorage.getItem(storageKey)
  if (stored !== null) liveMemory[key] = JSON.parse(stored)
  else liveMemory[key] = value.initial
} catch (err) { ...warn...; liveMemory[key] = value.initial }
``` -/
def loadPersisted (o : StorageOracle) (storageKey : String) (initial : JVal) : JVal :=
  match (do
    let stored ← o.getItem storageKey
    match stored with
    | some s => o.parse s
    | none => pure initial : Except Unit JVal) with
  | .ok v => v
  | .error _ => initial

/-- The Cortex constructor (`packages/humn/src/cortex.js`): spread the
input, then for every persisted marker record its storage key and
replace the marker by the loaded (or initial) value. -/
def cortexConstruct (o : StorageOracle) (memoryInput : List (String × MemEntry)) :
    CortexState :=
  let step := fun (acc : JObj × List (String × String)) (kv : String × MemEntry) =>
    match kv.2 with
    | .plain v => (jset acc.1 kv.1 v, acc.2)
    | .persisted initial configKey =>
        let storageKey := storageKeyOf kv.1 configKey
        (jset acc.1 kv.1 (loadPersisted o storageKey initial),
         acc.2 ++ [(kv.1, storageKey)])
  let res := memoryInput.foldl step ([], [])
  { memory := res.1, listeners := [], persistenceMap := res.2 }

/-- A mutation request handed to `set`. A functional updater is modelled
by the trace of property writes its callback performs through the
change-tracking proxy (each `(p, v)` is "assign `v` at full path `p`"),
plus its return value (`some r` when it returns a plain object `r`,
`none` otherwise; the callbacks in this repository return objects or
`undefined`). -/
inductive Updater where
  | merge (u : JObj)
  | fn (writes : List (Path × JVal)) (ret : Option JObj)

/-- One proxied deep assignment (`_createChangeTrackingProxy` GET+SET
traps): navigate the path's prefix through nested objects (each GET trap
re-wraps an object value), then assign at the last segment.  A prefix
segment that does not resolve to an object makes the JS callback throw a
`TypeError` (the raw value is returned un-proxied and the write hits a
primitive), modelled as `none`. -/
def setPath (o : JObj) : Path → JVal → Option JObj
  | [], _ => none
  | [k], v => some (jset o k v)
  | k :: rest, v =>
      match jget o k with
      | some (.obj inner) =>
          (setPath inner rest v).map (fun inner' => jset o k (.obj inner'))
      | _ => none

/-- Replay the callback's write trace over the clone: every SET trap adds
the full path to `changedPaths` and performs the assignment. -/
def applyWrites (o : JObj) : List (Path × JVal) → List Path →
    Option (JObj × List Path)
  | [], changed => some (o, changed)
  | (p, v) :: rest, changed =>
      match setPath o p v with
      | some o' => applyWrites o' rest (addPath changed p)
      | none => none

/-- `_notifyRelevantListeners` (`packages/humn/src/cortex.js`): walk the
listener map in insertion order and fire every render function one of
whose accessed paths relates to one of the changed paths; returns the
fired identities in order. -/
def notifyRelevantListeners (listeners : List (Nat × List Path))
    (changedPaths : List Path) : List Nat :=
  (listeners.filter (fun l =>
    l.2.any (fun accessedPath =>
      changedPaths.any (fun changedPath =>
        pathRelates accessedPath changedPath)))).map Prod.fst

/-- The persistence step of `set`: for every `persistenceMap` entry, if a
changed path equals the state key or starts with `stateKey + '.'`,
serialize the (new) field value and try to write it; a throwing
`setItem` is caught and ignored (`catch` only logs). -/
def persistDirty (o : StorageOracle) (persistenceMap : List (String × String))
    (memory : JObj) (changedPaths : List Path) : List (String × String) :=
  (persistenceMap.filter (fun e =>
      changedPaths.any (fun p => pathHitsKey p e.1))).filterMap
    (fun e =>
      match o.setItem e.2 (o.stringify (jget memory e.1)) with
      | .ok _ => some (e.2, o.stringify (jget memory e.1))
      | .error _ => none)

/-- Result of one `set` call: the new state, the write log that reached
durable storage, the changed-path set, and the notified listeners. -/
structure SetResult where
  state : CortexState
  written : List (String × String)
  changedPaths : List Path
  notified : List Nat
deriving Repr

/-- The mutation function `set` (`packages/humn/src/cortex.js`):

```js
if (typeof updater === 'function') {
  const clone = structuredClone(this._memory)
  const proxy = this._createChangeTrackingProxy(clone, changedPaths)
  const result = updater(proxy)
  if (result && typeof result === 'object') {
    nextState = { ...this._memory, ...result }
    Object.keys(result).forEach((key) => changedPaths.add(key))
  } else nextState = clone
} else {
  nextState = { ...this._memory, ...updater }
  changedPaths = new Set(Object.keys(updater))
}
this._memory = nextState
/* persistence */ ; this._notifyRelevantListeners(changedPaths)
```

`none` models the only uncaught throw (a proxied write through a
non-object prefix). -/
def cortexSet (o : StorageOracle) (st : CortexState) (updater : Updater) :
    Option SetResult :=
  match updater with
  | .merge u =>
      let nextState := shallowMerge st.memory u
      let changedPaths := (jkeys u).foldl (fun acc k => addPath acc [k]) []
      let written := persistDirty o st.persistenceMap nextState changedPaths
      some { state := { st with memory := nextState },
             written := written,
             changedPaths := changedPaths,
             notified := notifyRelevantListeners st.listeners changedPaths }
  | .fn writes ret =>
      match applyWrites st.memory writes [] with
      | none => none
      | some (clone, changed) =>
          let (nextState, changedPaths) :=
            match ret with
            | some result =>
                (shallowMerge st.memory result,
                 (jkeys result).foldl (fun acc k => addPath acc [k]) changed)
            | none => (clone, changed)
          let written := persistDirty o st.persistenceMap nextState changedPaths
          some { state := { st with memory := nextState },
                 written := written,
                 changedPaths := changedPaths,
                 notified := notifyRelevantListeners st.listeners changedPaths }

/-! ## The `memory` read accessor

A render execution of subscriber `obs` is modelled by the list of
property chains it reads; the access-tracking proxy records, for a chain
`state.a.b`, every nonempty prefix (`"a"` at the outer GET trap, `"a.b"`
at the nested one). -/

/-- Record the paths the access-tracking proxy sees for a list of read
chains into an existing accessed-path set (JS `Set.add` on the set
stored in the listener map): for a chain `state.a.b` every nonempty
segment-prefix is recorded (`"a"` at the outer GET trap, `"a.b"` at the
nested one), in read order. -/
def recordReadsInto (existing : List Path) (reads : List Path) : List Path :=
  (reads.flatMap (fun p => (List.range p.length).map (fun i => p.take (i + 1)))).foldl
    addPath existing

/-- `Map.set` semantics: update in place, or append a new entry. -/
def listenersSet (ls : List (Nat × List Path)) (k : Nat) (v : List Path) :
    List (Nat × List Path) :=
  if ls.any (fun e => e.1 = k) then
    ls.map (fun e => if e.1 = k then (k, v) else e)
  else ls ++ [(k, v)]

/-- One tracked render execution against the **`packages/humn`** memory
getter (`packages/humn/src/cortex.js`, `get memory()`): if an observer
is current, fetch (or create) its accessed-path set and record the
reads into it.  This getter never clears the set. -/
def memoryGetPkg (st : CortexState) (observer : Option Nat)
    (reads : List Path) : CortexState :=
  match observer with
  | none => st
  | some obs =>
      let existing := ((st.listeners.lookup obs).getD [])
      let ls := listenersSet st.listeners obs (recordReadsInto existing reads)
      { st with listeners := ls }

/-- One tracked render execution against the **`src/cortex.js`** memory
getter, which inserts `accessedPaths.clear()` before handing out the
tracking proxy ("This gives us fresh tracking each render"). -/
def memoryGetSrc (st : CortexState) (observer : Option Nat)
    (reads : List Path) : CortexState :=
  match observer with
  | none => st
  | some obs =>
      let ls := listenersSet st.listeners obs (recordReadsInto [] reads)
      { st with listeners := ls }

/-! ## Render-node constructor (`packages/humn/src/h.js`) -/

/-- An atomic entry of the `children` argument of `h`.  A VNode entry is
opaque to `h` (only identity matters: `h` never inspects it), so it is
carried as a token. -/
inductive HChild where
  | jsNull
  | jsUndef
  | bool (b : Bool)
  | str (s : String)
  | num (n : Int)
  | node (id : Nat)
deriving Repr, DecidableEq

/-- An entry of a `children` array: either a value or a nested array
(as produced by `.map` calls); `Array.prototype.flat()` with its default
depth `1` splices exactly this level. -/
inductive HItem where
  | atom (c : HChild)
  | arr (cs : List HChild)
deriving Repr, DecidableEq

/-- The `children` argument itself: `Array.isArray(children)` decides
between a single value and a list. -/
inductive HArg where
  | one (c : HChild)
  | many (items : List HItem)
deriving Repr, DecidableEq

/-- `Array.isArray(children) ? children : [children]`. -/
def childArrayOf : HArg → List HItem
  | .one c => [.atom c]
  | .many items => items

/-- `.flat()` (default depth 1). -/
def flattenOnce (items : List HItem) : List HChild :=
  items.flatMap (fun i => match i with
    | .atom c => [c]
    | .arr cs => cs)

/-- The filter predicate of `h`:
`(c) => c !== null && c !== undefined && c !== false && c !== ''`. -/
def keepChild : HChild → Bool
  | .jsNull => false
  | .jsUndef => false
  | .bool b => b
  | .str s => s ≠ ""
  | .num _ => true
  | .node _ => true

/-- The VNode record returned by `h` (`{ tag, props, children }`);
`props` is passed through untouched, of any type `π`. -/
structure HVNode (π : Type) where
  tag : String
  props : π
  children : List HChild
deriving Repr, DecidableEq

/-- `h(tag, props, children)` (`packages/humn/src/h.js`):

```js
const childArray = Array.isArray(children) ? children : [children]
const cleanChildren = childArray.flat()
  .filter((c) => c !== null && c !== undefined && c !== false && c !== '')
return { tag, props, children: cleanChildren }
``` -/
def hFn {π : Type} (tag : String) (props : π) (children : HArg) : HVNode π :=
  { tag := tag
    props := props
    children := (flattenOnce (childArrayOf children)).filter keepChild }

/-! ## Dependency registry and lifecycle hooks
(`src/observer.js` / unnamed observer part, and `src/lifecycle.js`) -/

/-- A component instance's hook container `{ mounts: [], cleanups: [] }`;
callbacks are identified by tokens. -/
structure Hooks where
  mounts : List Nat
  cleanups : List Nat
deriving Repr, DecidableEq

/-- The global `currentInstance` slot (`null` = no component running). -/
abbrev InstanceSlot := Option Hooks

/-- `getInstance()` (`observer.js`). -/
def getInstance (s : InstanceSlot) : Option Hooks := s

/-- `onMount(fn)` (`src/lifecycle.js`): push onto the current instance's
`mounts` list, if an instance is current; returns the slot afterwards. -/
def onMount (fn : Nat) (s : InstanceSlot) : InstanceSlot :=
  match getInstance s with
  | some inst => some { inst with mounts := inst.mounts ++ [fn] }
  | none => s

/-- `onCleanup(fn)` (`src/lifecycle.js`). -/
def onCleanup (fn : Nat) (s : InstanceSlot) : InstanceSlot :=
  match getInstance s with
  | some inst => some { inst with cleanups := inst.cleanups ++ [fn] }
  | none => s

/-! ## The reconciler (`src/patch.js`)

The live document is modelled as a tree: a parent's `childNodes` is a
`List DomNode`; every created node carries a unique `Nat` identity (the
JS object identity), drawn from a counter.  `el`/`child` references on
VNodes are node identities / nested VNode values; since the JS code
mutates VNodes in place, every modelled operation returns the updated
VNode alongside the updated DOM.  Component functions may return
arbitrary trees, so the mutually recursive patch functions carry fuel;
`none` models a non-terminating or out-of-model execution and never
arises in the runs the theorems describe. -/

/-- Property values in VNode props and live-node properties.  Function
values (event handlers, component refs) are compared by reference in the
source (`===`), modelled by a token identity. -/
inductive PVal where
  | str (s : String)
  | num (n : Int)
  | bool (b : Bool)
  | null
  | fn (id : Nat)
deriving Repr, DecidableEq

/-- VNode / DOM property maps. -/
abbrev Props := List (String × PVal)

/-- One lifecycle-hook registration call performed by a component
function during its execution (`onMount(f)` / `onCleanup(f)`). -/
inductive LReg where
  | mount (fn : Nat)
  | cleanup (fn : Nat)
deriving Repr, DecidableEq

/-- A primitive VNode (JS string or number child). -/
inductive Prim where
  | str (s : String)
  | num (n : Int)
deriving Repr, DecidableEq

/-- `String(p)`. -/
def primString : Prim → String
  | .str s => s
  | .num n => toString n

/-- `typeof p`. -/
def primTypeof : Prim → String
  | .str _ => "string"
  | .num _ => "number"

/-- Virtual nodes (`h.js` output plus the `el`/`child`/`hooks` fields the
reconciler attaches).  A component's `tag` is a function: modelled as a
reference token `fid` plus the function itself, which returns the
rendered VNode together with the trace of `onMount`/`onCleanup` calls it
made while executing. -/
inductive VNode where
  | prim (p : Prim)
  | elem (tag : String) (props : Props) (children : List VNode)
      (el : Option Nat)
  | comp (fid : Nat) (render : Props → VNode × List LReg)
      (props : Props) (children : List VNode)
      (el : Option Nat) (child : Option VNode) (hooks : Option Hooks)

/-- `vNode.el` (`undefined` on primitives). -/
def VNode.elOf : VNode → Option Nat
  | .prim _ => none
  | .elem _ _ _ el => el
  | .comp _ _ _ _ el _ _ => el

/-- `typeof vNode`. -/
def VNode.typeofStr : VNode → String
  | .prim p => primTypeof p
  | .elem _ _ _ _ => "object"
  | .comp _ _ _ _ _ _ _ => "object"

/-- `vNode.tag` under `!==` comparison: a string, a function reference,
or `undefined` (primitives). -/
def VNode.tagRef : VNode → Option (String ⊕ Nat)
  | .prim _ => none
  | .elem tag _ _ _ => some (Sum.inl tag)
  | .comp fid _ _ _ _ _ _ => some (Sum.inr fid)

/-- JS truthiness of a possibly-absent VNode (`!oldVNode`, `c && ...`). -/
def vnodeTruthy : Option VNode → Bool
  | none => false
  | some (.prim (.str s)) => s ≠ ""
  | some (.prim (.num n)) => n ≠ 0
  | some _ => true

/-- Live document nodes.  `props` holds element-object properties
(`value`, `checked`, `disabled`), `attrs` the attribute map
(`setAttribute`), `listeners` the event-listener list. -/
inductive DomNode where
  | text (id : Nat) (value : String)
  | elem (id : Nat) (tag : String) (attrs : Props) (props : Props)
      (listeners : List (String × Nat)) (children : List DomNode)
deriving Repr

mutual

def DomNode.beq : DomNode → DomNode → Bool
  | .text i v, .text i' v' => i == i' && v == v'
  | .elem i t a p l c, .elem i' t' a' p' l' c' =>
      i == i' && t == t' && a == a' && p == p' && l == l'
        && DomNode.beqList c c'
  | _, _ => false

def DomNode.beqList : List DomNode → List DomNode → Bool
  | [], [] => true
  | c :: cs, c' :: cs' => DomNode.beq c c' && DomNode.beqList cs cs'
  | _, _ => false

end

mutual

theorem DomNode.beqRefl : (n : DomNode) → DomNode.beq n n = true
  | .text i v => by simp [DomNode.beq]
  | .elem i t a p l c => by
      simp [DomNode.beq, DomNode.beqList_refl c]

theorem DomNode.beqList_refl : (l : List DomNode) → DomNode.beqList l l = true
  | [] => by simp [DomNode.beqList]
  | c :: cs => by
      simp [DomNode.beqList, DomNode.beqRefl c, DomNode.beqList_refl cs]

end

mutual

theorem DomNode.eqOfBeq : {a b : DomNode} → DomNode.beq a b = true → a = b
  | .text _ _, .text _ _, h => by
      simp only [DomNode.beq, Bool.and_eq_true, beq_iff_eq] at h
      rw [h.1, h.2]
  | .elem _ _ _ _ _ c, .elem _ _ _ _ _ c', h => by
      simp only [DomNode.beq, Bool.and_eq_true, beq_iff_eq] at h
      obtain ⟨⟨⟨⟨⟨h1, h2⟩, h3⟩, h4⟩, h5⟩, h6⟩ := h
      rw [h1, h2, h3, h4, h5, DomNode.eqList_of_beq h6]
  | .text _ _, .elem _ _ _ _ _ _, h => by simp [DomNode.beq] at h
  | .elem _ _ _ _ _ _, .text _ _, h => by simp [DomNode.beq] at h

theorem DomNode.eqList_of_beq :
    {a b : List DomNode} → DomNode.beqList a b = true → a = b
  | [], [], _ => rfl
  | c :: cs, c' :: cs', h => by
      simp only [DomNode.beqList, Bool.and_eq_true] at h
      rw [DomNode.eqOfBeq h.1, DomNode.eqList_of_beq h.2]
  | [], _ :: _, h => by simp [DomNode.beqList] at h
  | _ :: _, [], h => by simp [DomNode.beqList] at h

end

instance : BEq DomNode := ⟨DomNode.beq⟩

instance : DecidableEq DomNode := fun a b =>
  if h : DomNode.beq a b then .isTrue (DomNode.eqOfBeq h)
  else .isFalse (fun he => h (he ▸ DomNode.beqRefl a))

instance : LawfulBEq DomNode where
  eq_of_beq := DomNode.eqOfBeq
  rfl := DomNode.beqRefl _

/-- The node's object identity. -/
def DomNode.idOf : DomNode → Nat
  | .text i _ => i
  | .elem i _ _ _ _ _ => i

/-- `el.childNodes` (empty for text nodes). -/
def DomNode.childrenOf : DomNode → List DomNode
  | .text _ _ => []
  | .elem _ _ _ _ _ cs => cs

/-- Generic JS-object property assignment on an association list. -/
def aset {α : Type} (l : List (String × α)) (k : String) (v : α) :
    List (String × α) :=
  if l.any (fun e => e.1 = k) then
    l.map (fun e => if e.1 = k then (k, v) else e)
  else l ++ [(k, v)]

/-- `el[key]` for element-object properties. -/
def domGetProp (n : DomNode) (k : String) : Option PVal :=
  match n with
  | .text _ _ => none
  | .elem _ _ _ props _ _ => props.lookup k

/-- `el[key] = v`. -/
def domSetProp (n : DomNode) (k : String) (v : PVal) : DomNode :=
  match n with
  | .text i s => .text i s
  | .elem i t attrs props ls cs => .elem i t attrs (aset props k v) ls cs

/-- `el.removeAttribute(key)`. -/
def domRemoveAttr (n : DomNode) (k : String) : DomNode :=
  match n with
  | .text i s => .text i s
  | .elem i t attrs props ls cs =>
      .elem i t (attrs.filter (fun e => e.1 ≠ k)) props ls cs

/-- `el.setAttribute(key, v)`. -/
def domSetAttr (n : DomNode) (k : String) (v : PVal) : DomNode :=
  match n with
  | .text i s => .text i s
  | .elem i t attrs props ls cs => .elem i t (aset attrs k v) props ls cs

/-- `el.addEventListener(ev, f)` (a duplicate (ev, f) pair is ignored,
as in the DOM). -/
def domAddListener (n : DomNode) (ev : String) (f : Nat) : DomNode :=
  match n with
  | .text i s => .text i s
  | .elem i t attrs props ls cs =>
      if (ev, f) ∈ ls then .elem i t attrs props ls cs
      else .elem i t attrs props (ls ++ [(ev, f)]) cs

/-- `el.removeEventListener(ev, f)`. -/
def domRemoveListener (n : DomNode) (ev : String) (f : Nat) : DomNode :=
  match n with
  | .text i s => .text i s
  | .elem i t attrs props ls cs =>
      .elem i t attrs props (ls.filter (fun e => e ≠ (ev, f))) cs

/-- Replace an element's child list. -/
def domWithChildren (n : DomNode) (cs' : List DomNode) : DomNode :=
  match n with
  | .text i s => .text i s
  | .elem i t attrs props ls _ => .elem i t attrs props ls cs'

/-- One mutation performed by `patchProps`, logged for specification. -/
inductive WOp where
  | removeAttr (k : String)
  | setProp (k : String) (v : PVal)
  | setAttr (k : String) (v : PVal)
  | addListener (ev : String) (f : Nat)
  | removeListener (ev : String) (f : Nat)
deriving Repr, DecidableEq

/-- Key iteration order of `{ ...oldProps, ...newProps }`. -/
def unionKeys (oldProps newProps : Props) : List String :=
  oldProps.map Prod.fst
    ++ (newProps.map Prod.fst).filter
        (fun k => !(oldProps.map Prod.fst).contains k)

/-- The body of `patchProps`'s `for (const key in allProps)` loop
(`src/patch.js`):

```js
const oldValue = oldProps[key]; const newValue = newProps[key]
if (newValue === undefined || newValue === null) { el.removeAttribute(key); continue }
// We check against the LIVE DOM value to prevent cursor jumping
if (key === 'value' || key === 'checked') {
  if (el[key] !== newValue) el[key] = newValue
  continue }
if (oldValue === newValue) continue
if (key.startsWith('on')) { ...rebind... }   // note: falls through
if (key === 'disabled') { el.disabled = newValue === true || newValue === 'true' }
else { el.setAttribute(key, newValue) }
``` -/
def patchPropsEvents (el : DomNode) (key : String) (oldValue : Option PVal)
    (v : PVal) : DomNode × List WOp :=
  if key.startsWith "on" then
    let ev := (key.drop 2).toLower
    let r :=
      match oldValue with
      | some (.fn f) => (domRemoveListener el ev f, [WOp.removeListener ev f])
      | _ => (el, [])
        -- a truthy non-function old handler does not occur in this codebase
    match v with
    | .fn f => (domAddListener r.1 ev f, r.2 ++ [WOp.addListener ev f])
    | _ => r
      -- a non-function new handler does not occur in this codebase
  else (el, [])

def patchPropsStep (el : DomNode) (newProps oldProps : Props) (key : String) :
    DomNode × List WOp :=
  let oldValue := oldProps.lookup key
  let newValue := newProps.lookup key
  if newValue = none ∨ newValue = some .null then
    (domRemoveAttr el key, [.removeAttr key])
  else
    let v := newValue.getD .null
    if key = "value" ∨ key = "checked" then
      if domGetProp el key ≠ some v then (domSetProp el key v, [.setProp key v])
      else (el, [])
    else if oldValue = newValue then (el, [])
    else
      let r1 := patchPropsEvents el key oldValue v
      if key = "disabled" then
        let b := v = .bool true ∨ v = .str "true"
        (domSetProp r1.1 "disabled" (.bool b),
          r1.2 ++ [.setProp "disabled" (.bool b)])
      else (domSetAttr r1.1 key v, r1.2 ++ [.setAttr key v])

/-- `patchProps(el, newProps, oldProps)` (`src/patch.js`): iterate the
merged key set, mutating the node; also returns the mutation log. -/
def patchProps (el : DomNode) (newProps oldProps : Props) : DomNode × List WOp :=
  (unionKeys oldProps newProps).foldl
    (fun acc k =>
      let r := patchPropsStep acc.1 newProps oldProps k
      (r.1, acc.2 ++ r.2))
    (el, [])

/-- Replay a component function's lifecycle-registration trace through
the dependency registry (`onMount` / `onCleanup` against the current
instance slot). -/
def runRegs (regs : List LReg) (s : InstanceSlot) : InstanceSlot :=
  regs.foldl
    (fun s r => match r with
      | .mount f => onMount f s
      | .cleanup f => onCleanup f s)
    s

/-- `renderComponent(vNode)` (`src/patch.js`): allocate a fresh hook
container, point the instance slot at it, run the component function,
clear the slot, and return the rendered child with the hooks. -/
def renderComponent (render : Props → VNode × List LReg) (props : Props) :
    VNode × Hooks :=
  let r := render props
  let slot := runRegs r.2 (some ⟨[], []⟩)
  (r.1, slot.getD ⟨[], []⟩)

mutual

/-- `runUnmount(vNode)` (`src/patch.js`): run this node's cleanups, then
recurse into `child` (component result), then into `children`.  Returns
the invocation log extended with each invoked cleanup callback. -/
def runUnmountV : VNode → List Nat → List Nat
  | .prim _, log => log
  | .elem _ _ children _, log => runUnmountList children log
  | .comp _ _ _ children _ child hooks, log =>
      let log := log ++ (match hooks with | some h => h.cleanups | none => [])
      let log := match child with | some c => runUnmountV c log | none => log
      runUnmountList children log

def runUnmountList : List VNode → List Nat → List Nat
  | [], log => log
  | c :: rest, log => runUnmountList rest (runUnmountV c log)

end

/-- `children.some(c => c && c.props && c.props.key != null)`
(`hasKeys`, `src/patch.js`). -/
def vnodeHasKey (c : VNode) : Bool :=
  match c with
  | .prim _ => false
  | .elem _ props _ _ | .comp _ _ props _ _ _ _ =>
      match props.lookup "key" with
      | some v => v ≠ .null
      | none => false

/-- `hasKeys(children)`. -/
def hasKeys (children : List VNode) : Bool := children.any vnodeHasKey

/-- JS object-property coercion of a key value. -/
def pvalKeyStr : PVal → String
  | .str s => s
  | .num n => toString n
  | .bool b => if b then "true" else "false"
  | .null => "null"
  | .fn id => "function:" ++ toString id

/-- `(child.props && child.props.key) != null ? child.props.key : i` —
the reconciliation key of a child at index `i`. -/
def keyOfChild (c : VNode) (i : Nat) : String :=
  match c with
  | .prim _ => toString i
  | .elem _ props _ _ | .comp _ _ props _ _ _ _ =>
      match props.lookup "key" with
      | some v => if v = .null then toString i else pvalKeyStr v
      | none => toString i

/-- The `keyed` map of old children (`keyed[key] = { vNode, index }`),
in insertion order. -/
def buildKeyedMap (oldChildren : List VNode) : List (String × VNode × Nat) :=
  oldChildren.enum.foldl
    (fun m ci => aset m (keyOfChild ci.2 ci.1) (ci.2, ci.1)) []

/-- `delete keyed[key]`. -/
def aremove {α : Type} (l : List (String × α)) (k : String) :
    List (String × α) :=
  l.filter (fun e => e.1 ≠ k)

/-- Node identities of a child list. -/
def idsOf (cs : List DomNode) : List Nat := cs.map DomNode.idOf

/-- Find a direct child by identity. -/
def findById (cs : List DomNode) (i : Nat) : Option DomNode :=
  cs.find? (fun c => c.idOf = i)

/-- `parent.removeChild(node)`. -/
def removeById (cs : List DomNode) (i : Nat) : List DomNode :=
  cs.eraseP (fun c => c.idOf == i)

/-- `parent.replaceChild(new, old)`. -/
def replaceById (cs : List DomNode) (i : Nat) (n : DomNode) : List DomNode :=
  cs.map (fun c => if c.idOf = i then n else c)

/-- Update a direct child in place. -/
def updateById (cs : List DomNode) (i : Nat) (f : DomNode → DomNode) :
    List DomNode :=
  cs.map (fun c => if c.idOf = i then f c else c)

/-- `parent.insertBefore(n, ref)` for a node `n` not currently in the
list; `ref = none` (`undefined`/`null` reference) appends.  A `ref`
identity that is not a child would make the DOM throw; it does not occur
in the modelled flows (we append). -/
def insertNodeBefore (cs : List DomNode) (n : DomNode) (ref : Option Nat) :
    List DomNode :=
  match ref with
  | none => cs ++ [n]
  | some r =>
      match cs.findIdx? (fun c => c.idOf = r) with
      | some j => cs.take j ++ n :: cs.drop j
      | none => cs ++ [n]

/-- `parent.insertBefore(el, ref)` where `el` is an existing child being
moved: the DOM detaches it from its current position first. -/
def moveById (cs : List DomNode) (e : Nat) (ref : Option Nat) :
    List DomNode :=
  match findById cs e with
  | some n => insertNodeBefore (removeById cs e) n ref
  | none => cs

/-- The final phase of keyed reconciliation (`src/patch.js`):

```js
Object.values(keyed).forEach(({ vNode }) => {
  if (vNode.el && vNode.el.parentNode === parent) parent.removeChild(vNode.el)
})
```

Note: the nodes are removed **without** running their cleanup hooks. -/
def removeUnmatched (keyedRest : List (String × VNode × Nat))
    (cs : List DomNode) : List DomNode :=
  keyedRest.foldl
    (fun cs e =>
      match (e.2.1).elOf with
      | some el => if el ∈ idsOf cs then removeById cs el else cs
      | none => cs)
    cs

/-- Mutable runtime bookkeeping outside the DOM: the identity counter,
the log of invoked cleanup callbacks (in invocation order) and the
mount callbacks queued via `setTimeout`. -/
structure RtState where
  nextId : Nat
  cleanupLog : List Nat
  mountQueue : List Nat
deriving Repr, DecidableEq

/-- `oldVNode ? oldVNode.child : undefined` — only component VNodes
carry a `child` field. -/
def oldChildOf : Option VNode → Option VNode
  | some (.comp _ _ _ _ _ child _) => child
  | _ => none

/-- The value of a primitive VNode (`undefined` otherwise). -/
def primValOf : VNode → Option Prim
  | .prim p => some p
  | _ => none

/-- `oldVNode.props` where only element VNodes carry props the
element-update path reads. -/
def elemPropsOf : VNode → Props
  | .elem _ p _ _ => p
  | _ => []

/-- `oldVNode.children` of an element VNode. -/
def elemChildrenOf : VNode → List VNode
  | .elem _ _ k _ => k
  | _ => []

/-- The text-update action: `el.nodeValue = String(newVNode)` on the
node at `index` (a no-op on an element node), or the self-healing append
of a fresh text node when no node is there. -/
def textUpdateAt (st : RtState) (cs : List DomNode) (index : Nat)
    (s : String) : List DomNode × RtState :=
  match cs.get? index with
  | some (.text tid _) => (cs.set index (.text tid s), st)
  | some (.elem _ _ _ _ _ _) => (cs, st)
  | none => (cs ++ [.text st.nextId s], { st with nextId := st.nextId + 1 })

mutual

/-- `createElement(vNode)` (`src/patch.js`): build a live subtree,
attach `el`/`child`/`hooks` onto the VNode, queue mount hooks. -/
def createElement (fuel : Nat) (st : RtState) (v : VNode) :
    Option (DomNode × VNode × RtState) :=
  match fuel with
  | 0 => none
  | fuel + 1 =>
    match v with
    | .prim p =>
        some (.text st.nextId (primString p), .prim p,
          { st with nextId := st.nextId + 1 })
    | .comp fid render props children _ _ _ =>
        let rc := renderComponent render props
        match createElement fuel st rc.1 with
        | none => none
        | some (el, childV, st') =>
            let st'' :=
              if rc.2.mounts ≠ [] then
                { st' with mountQueue := st'.mountQueue ++ rc.2.mounts }
              else st'
            some (el,
              .comp fid render props children (some el.idOf) (some childV)
                (some rc.2),
              st'')
    | .elem tag props children _ =>
        let id := st.nextId
        let st1 := { st with nextId := st.nextId + 1 }
        let pp := patchProps (.elem id tag [] [] [] []) props []
        match createChildren fuel st1 children with
        | none => none
        | some (domKids, kids', st2) =>
            some (domWithChildren pp.1 domKids, .elem tag props kids' (some id),
              st2)
termination_by (fuel, 0)

/-- `vNode.children.forEach(child => el.appendChild(createElement(child)))`. -/
def createChildren (fuel : Nat) (st : RtState) (vs : List VNode) :
    Option (List DomNode × List VNode × RtState) :=
  match vs with
  | [] => some ([], [], st)
  | c :: rest =>
      match createElement fuel st c with
      | none => none
      | some (dn, c', st') =>
          match createChildren fuel st' rest with
          | none => none
          | some (dns, cs', st'') => some (dn :: dns, c' :: cs', st'')
termination_by (fuel, vs.length + 1)

/-- `patch(parent, newVNode, oldVNode, index)` (`src/patch.js`); `cs` is
the parent's `childNodes`.  Returns the updated child list, the updated
new VNode (its `el`/`child` fields filled), and the runtime state.  The
unmount and component branches live here; the remaining branches of the
source function are `patchNonComp` below. -/
def patch (fuel : Nat) (st : RtState) (cs : List DomNode)
    (newV oldV : Option VNode) (index : Nat) :
    Option (List DomNode × Option VNode × RtState) :=
  match fuel with
  | 0 => none
  | fuel + 1 =>
    match newV with
    | none =>
        -- HANDLE UNMOUNTING: runs the recursive cleanup, then removes.
        match oldV with
        | none => none   -- JS: `oldVNode.el` on undefined throws
        | some old =>
            let el := old.elOf <|> (cs.get? index).map DomNode.idOf
            let st' := { st with cleanupLog := runUnmountV old st.cleanupLog }
            let cs' := match el with
              | some e => removeById cs e
              | none => cs
            some (cs', none, st')
    | some (.comp fid render props children a b c) =>
        -- HANDLE COMPONENT
        let isNew := !vnodeTruthy oldV
        let rc := renderComponent render props
        match patch fuel st cs (some rc.1) (oldChildOf oldV) index with
        | none => none
        | some (cs', updChild, st') =>
            match updChild with
            | none => none   -- unreachable: `newV` was present
            | some cv =>
                let st'' :=
                  if isNew ∧ rc.2.mounts ≠ [] then
                    { st' with mountQueue := st'.mountQueue ++ rc.2.mounts }
                  else st'
                some (cs',
                  some (.comp fid render props children cv.elOf (some cv)
                    (some rc.2)),
                  st'')
    | some (.prim p) => patchNonComp fuel st cs (.prim p) oldV index
    | some (.elem tag props kids el) =>
        patchNonComp fuel st cs (.elem tag props kids el) oldV index
termination_by (fuel, 0)

/-- The non-component branches of `patch`: create, replace, text update
and same-tag update.  (`fuel` is decremented once more on entry; fuel is
a modelling artifact, not part of the source.) -/
def patchNonComp (fuel : Nat) (st : RtState) (cs : List DomNode)
    (newv : VNode) (oldV : Option VNode) (index : Nat) :
    Option (List DomNode × Option VNode × RtState) :=
  match fuel with
  | 0 => none
  | fuel + 1 =>
    match oldV with
    | none =>
        -- Start - No old node? Create new (appendChild).
        match createElement fuel st newv with
        | none => none
        | some (dn, newv1, st1) => some (cs ++ [dn], some newv1, st1)
    | some old =>
        -- (the source repeats the `newVNode == null` removal check
        -- here; it is unreachable, `newV` being present.)  The
        -- changed-type test `typeof newVNode !== typeof oldVNode ||
        -- (typeof newVNode !== 'string' && newVNode.tag !== oldVNode.tag)`
        -- is stated per `newv` constructor (it never sees a component:
        -- `patch` intercepts those).
        match newv with
        | .prim p =>
            if (VNode.prim p).typeofStr ≠ old.typeofStr
                ∨ ((VNode.prim p).typeofStr ≠ "string"
                    ∧ (VNode.prim p).tagRef ≠ old.tagRef) then
              -- Changed Type -> Replace whole node
              match old.elOf <|> (cs.get? index).map DomNode.idOf with
              | some e =>
                  match createElement fuel st (.prim p) with
                  | none => none
                  | some (dn, newv1, st1) =>
                      some (replaceById cs e dn, some newv1, st1)
              | none => some (cs, some (.prim p), st)
            else
              -- Text Update (old has equal typeof, hence a prim)
              if some p ≠ primValOf old then
                let r := textUpdateAt st cs index (primString p)
                some (r.1, some (.prim p), r.2)
              else some (cs, some (.prim p), st)
        | .elem tag nprops nkids x =>
            if (VNode.elem tag nprops nkids x).typeofStr ≠ old.typeofStr
                ∨ ((VNode.elem tag nprops nkids x).typeofStr ≠ "string"
                    ∧ (VNode.elem tag nprops nkids x).tagRef ≠ old.tagRef) then
              -- Changed Type -> Replace whole node
              match old.elOf <|> (cs.get? index).map DomNode.idOf with
              | some e =>
                  match createElement fuel st (.elem tag nprops nkids x) with
                  | none => none
                  | some (dn, newv1, st1) =>
                      some (replaceById cs e dn, some newv1, st1)
              | none => some (cs, some (.elem tag nprops nkids x), st)
            else
              -- Same Tag - Update Props & Children
              match old.elOf <|> (cs.get? index).map DomNode.idOf with
              | none => some (cs, some (.elem tag nprops nkids x), st)
              | some e =>
                  match findById cs e with
                  | none => none
                    -- patching a node detached from this parent is
                    -- outside the modelled flows
                  | some dn =>
                      let pp := patchProps dn nprops (elemPropsOf old)
                      match reconcileChildren fuel st pp.1.childrenOf
                          nkids (elemChildrenOf old) with
                      | none => none
                      | some (inner, nkids1, st1) =>
                          some (updateById cs e
                              (fun _ => domWithChildren pp.1 inner),
                            some (.elem tag nprops nkids1 (some e)),
                            st1)
        | .comp _ _ _ _ _ _ _ => none   -- unreachable: handled in patch
termination_by (fuel, 0)

/-- `reconcileChildren(parent, newChildren, oldChildren)`
(`src/patch.js`). -/
def reconcileChildren (fuel : Nat) (st : RtState) (cs : List DomNode)
    (newChildren oldChildren : List VNode) :
    Option (List DomNode × List VNode × RtState) :=
  if !(hasKeys newChildren || hasKeys oldChildren) then
    unkeyedLoop fuel st cs newChildren oldChildren 0
      (max newChildren.length oldChildren.length) []
  else
    match keyedLoop fuel st cs (buildKeyedMap oldChildren) newChildren 0 [] with
    | none => none
    | some (cs', keyedRest, acc, st') =>
        some (removeUnmatched keyedRest cs', acc, st')
termination_by (fuel, newChildren.length + oldChildren.length + 2)

/-- The index-based simple loop of `reconcileChildren`:
`for (let i = 0; i < maxLen; i++) patch(parent, newChildren[i], oldChildren[i], i)`. -/
def unkeyedLoop (fuel : Nat) (st : RtState) (cs : List DomNode)
    (newChildren oldChildren : List VNode) (i remaining : Nat)
    (acc : List VNode) :
    Option (List DomNode × List VNode × RtState) :=
  match remaining with
  | 0 => some (cs, acc, st)
  | remaining + 1 =>
      match patch fuel st cs (newChildren.get? i) (oldChildren.get? i) i with
      | none => none
      | some (cs', updV, st') =>
          unkeyedLoop fuel st' cs' newChildren oldChildren (i + 1) remaining
            (acc ++ updV.toList)
termination_by (fuel, remaining + 1)

/-- The keyed loop of `reconcileChildren`: match each new child by key,
patch and move matched nodes, create unmatched ones. -/
def keyedLoop (fuel : Nat) (st : RtState) (cs : List DomNode)
    (keyed : List (String × VNode × Nat)) (newRem : List VNode) (i : Nat)
    (acc : List VNode) :
    Option (List DomNode × List (String × VNode × Nat) × List VNode × RtState) :=
  match newRem with
  | [] => some (cs, keyed, acc, st)
  | nc :: rest =>
      let key := keyOfChild nc i
      match keyed.lookup key with
      | some (oldV, _oldIdx) =>
          -- A. MATCH FOUND
          match patch fuel st cs (some nc) (some oldV) i with
          | none => none
          | some (cs', ncUpd, st') =>
              let ncU := ncUpd.getD nc
              let el := ncU.elOf <|> oldV.elOf
              let atIdx := (cs'.get? i).map DomNode.idOf
              let cs'' :=
                match el with
                | some e => if atIdx ≠ some e then moveById cs' e atIdx else cs'
                | none => cs'
              keyedLoop fuel st' cs'' (aremove keyed key) rest (i + 1)
                (acc ++ [ncU])
      | none =>
          -- B. NO MATCH (New Item)
          match createElement fuel st nc with
          | none => none
          | some (dn, ncU, st') =>
              let cs'' :=
                match (cs.get? i).map DomNode.idOf with
                | some ref => insertNodeBefore cs dn (some ref)
                | none => cs ++ [dn]
              keyedLoop fuel st' cs'' keyed rest (i + 1) (acc ++ [ncU])
termination_by (fuel, newRem.length + 1)

end

/-! ## Basic lemmas about the association-list and path primitives -/

theorem jget_nil (k : String) : jget [] k = none := rfl

theorem jget_cons (kv : String × JVal) (rest : JObj) (k : String) :
    jget (kv :: rest) k = if kv.1 = k then some kv.2 else jget rest k := by
  obtain ⟨k', v'⟩ := kv
  show List.lookup k ((k', v') :: rest) = _
  rw [List.lookup_cons]
  by_cases h : k' = k
  · subst h; simp
  · have hb : (k == k') = false := by simpa [beq_iff_eq] using Ne.symm h
    simp [hb, h, jget]

theorem jget_append (a b : JObj) (k : String) :
    jget (a ++ b) k = (jget a k).or (jget b k) := by
  induction a with
  | nil => simp [jget_nil]
  | cons kv rest ih =>
      rw [List.cons_append, jget_cons, jget_cons]
      by_cases h : kv.1 = k
      · simp [h]
      · simp [h, ih]

theorem jget_isSome_iff_any (o : JObj) (k : String) :
    (jget o k).isSome = o.any (fun kv => kv.1 = k) := by
  induction o with
  | nil => rfl
  | cons kv rest ih =>
      rw [jget_cons, List.any_cons]
      by_cases h : kv.1 = k
      · simp [h]
      · simp [h, ih]

theorem jget_map_setIf (o : JObj) (k k' : String) (v : JVal) :
    jget (o.map (fun kv => if kv.1 = k then (k, v) else kv)) k'
      = if k' = k then (jget o k).map (fun _ => v) else jget o k' := by
  by_cases hk : k' = k
  · subst hk
    rw [if_pos rfl]
    induction o with
    | nil => simp [jget_nil]
    | cons kv rest ih =>
        obtain ⟨k₀, v₀⟩ := kv
        by_cases h0 : k₀ = k'
        · subst h0
          simp [jget_cons]
        · simp [jget_cons, h0, ih]
  · rw [if_neg hk]
    induction o with
    | nil => simp
    | cons kv rest ih =>
        obtain ⟨k₀, v₀⟩ := kv
        by_cases h0 : k₀ = k
        · subst h0
          have hne : k₀ ≠ k' := fun he => hk he.symm
          simp [jget_cons, hne, ih]
        · simp [jget_cons, h0, ih]

theorem jget_jset_self (o : JObj) (k : String) (v : JVal) :
    jget (jset o k v) k = some v := by
  unfold jset
  split
  · rename_i h
    rw [jget_map_setIf, if_pos rfl]
    have : (jget o k).isSome = true := by rw [jget_isSome_iff_any]; exact h
    cases hk : jget o k with
    | some w => simp
    | none => rw [hk] at this; simp at this
  · rename_i h
    rw [jget_append]
    have : jget o k = none := by
      have h2 := jget_isSome_iff_any o k
      rw [Bool.eq_false_iff.mpr h] at h2
      exact Option.not_isSome_iff_eq_none.mp (by rw [h2]; simp)
    rw [this]
    simp [jget_cons, jget_nil]

theorem jget_jset_other (o : JObj) (k k' : String) (v : JVal) (h : k' ≠ k) :
    jget (jset o k v) k' = jget o k' := by
  unfold jset
  split
  · rw [jget_map_setIf, if_neg h]
  · rw [jget_append, jget_cons, jget_nil, if_neg (Ne.symm h)]
    simp

theorem jget_map_override (a b : JObj) (k : String) :
    jget (a.map (fun kv => match jget b kv.1 with
      | some v => (kv.1, v)
      | none => kv)) k
      = (jget a k).map (fun w => (jget b k).getD w) := by
  induction a with
  | nil => simp [jget_nil]
  | cons kv rest ih =>
      obtain ⟨k', v'⟩ := kv
      simp only [List.map_cons]
      by_cases h : k' = k
      · subst h
        cases hb : jget b k' with
        | some v =>
            simp only [hb]
            rw [jget_cons, jget_cons]
            simp [hb]
        | none =>
            simp only [hb]
            rw [jget_cons, jget_cons]
            simp [hb]
      · cases hb : jget b k' with
        | some v =>
            simp only [hb]
            rw [jget_cons, jget_cons, if_neg h, if_neg h, ih]
        | none =>
            simp only [hb]
            rw [jget_cons, jget_cons, if_neg h, if_neg h, ih]

theorem jget_filter_keyPred (b : JObj) (p : String → Bool) (k : String)
    (hp : p k = true) :
    jget (b.filter (fun kv => p kv.1)) k = jget b k := by
  induction b with
  | nil => simp
  | cons kv rest ih =>
      obtain ⟨k', v'⟩ := kv
      rw [List.filter_cons]
      by_cases h : k' = k
      · subst h
        simp only [hp, decide_True, if_true]
        rw [jget_cons, jget_cons]
        simp [ih]
      · by_cases hpk : p k' = true
        · simp only [hpk, if_true]
          rw [jget_cons, jget_cons, if_neg h, if_neg h, ih]
        · simp only [Bool.not_eq_true] at hpk
          simp only [hpk, Bool.false_eq_true, if_false]
          rw [jget_cons, if_neg h, ih]

/-- Lookup law of JS spread: `({ ...a, ...b })[k]` is `b[k] ?? a[k]`. -/
theorem jget_shallowMerge (a b : JObj) (k : String) :
    jget (shallowMerge a b) k = (jget b k).or (jget a k) := by
  unfold shallowMerge
  rw [jget_append, jget_map_override]
  cases ha : jget a k with
  | some w =>
      cases hb : jget b k with
      | some v => simp [hb]
      | none => simp [hb]
  | none =>
      simp only [Option.map_none', Option.none_or, Option.or_none]
      rw [jget_filter_keyPred b (fun s => (jget a s).isNone) k (by simp [ha])]

/-- `pathRelates` is the relation the spec describes: equal, dot-prefix
ancestor, or dot-prefix descendant. -/
theorem pathRelates_iff (a c : Path) :
    pathRelates a c = true ↔ (a = c ∨ c <+: a ∨ a <+: c) := by
  unfold pathRelates
  simp only [Bool.or_eq_true, Bool.and_eq_true, decide_eq_true_eq,
    List.isPrefixOf_iff_prefix]
  constructor
  · rintro ((h | ⟨_, h⟩) | ⟨_, h⟩)
    · exact Or.inl h
    · exact Or.inr (Or.inl h)
    · exact Or.inr (Or.inr h)
  · rintro (h | h | h)
    · exact Or.inl (Or.inl h)
    · rcases eq_or_lt_of_le h.length_le with he | hl
      · exact Or.inl (Or.inl (List.IsPrefix.eq_of_length h he).symm)
      · exact Or.inl (Or.inr ⟨hl, h⟩)
    · rcases eq_or_lt_of_le h.length_le with he | hl
      · exact Or.inl (Or.inl (List.IsPrefix.eq_of_length h he))
      · exact Or.inr ⟨hl, h⟩

/-- Membership in a `Set.add` fold. -/
theorem mem_foldl_addPath (ps : List Path) (acc : List Path) (p : Path) :
    p ∈ ps.foldl addPath acc ↔ p ∈ acc ∨ p ∈ ps := by
  induction ps generalizing acc with
  | nil => simp
  | cons q rest ih =>
      simp only [List.foldl_cons, ih, addPath]
      split
      · rename_i hq
        constructor
        · rintro (h | h)
          · exact Or.inl h
          · exact Or.inr (List.mem_cons_of_mem _ h)
        · rintro (h | h)
          · exact Or.inl h
          · rcases List.mem_cons.mp h with rfl | h
            · exact Or.inl hq
            · exact Or.inr h
      · simp only [List.mem_append, List.mem_singleton, List.mem_cons]
        tauto

/-- With distinct keys, `new Set(Object.keys(u))` (as singleton segment
paths) is exactly the key list. -/
theorem foldl_addPath_keys (ks : List String) (acc : List Path)
    (hnd : ks.Nodup) (hdisj : ∀ k ∈ ks, [k] ∉ acc) :
    ks.foldl (fun acc k => addPath acc [k]) acc
      = acc ++ ks.map (fun k => [k]) := by
  induction ks generalizing acc with
  | nil => simp
  | cons k rest ih =>
      simp only [List.foldl_cons, List.map_cons]
      rw [addPath, if_neg (hdisj k (List.mem_cons_self _ _))]
      rw [ih (acc ++ [[k]]) (List.nodup_cons.mp hnd).2 ?_]
      · simp
      · intro k' hk' hmem
        rcases List.mem_append.mp hmem with h | h
        · exact hdisj k' (List.mem_cons_of_mem _ hk') h
        · simp only [List.mem_singleton, List.cons.injEq] at h
          exact (List.nodup_cons.mp hnd).1 (h.1 ▸ hk')

/-- In an association list with distinct keys, a key determines its
value. -/
theorem assoc_nodup_eq {α β : Type} (l : List (α × β))
    (hnd : (l.map Prod.fst).Nodup) {a : α} {b b' : β}
    (h1 : (a, b) ∈ l) (h2 : (a, b') ∈ l) : b = b' := by
  induction l with
  | nil => cases h1
  | cons kv rest ih =>
      rw [List.map_cons, List.nodup_cons] at hnd
      rcases List.mem_cons.mp h1 with he1 | h1'
      · rcases List.mem_cons.mp h2 with he2 | h2'
        · rw [← he1] at he2
          exact (congrArg Prod.snd he2).symm
        · exfalso
          exact hnd.1 (he1 ▸ (List.mem_map.mpr ⟨(a, b'), h2', rfl⟩))
      · rcases List.mem_cons.mp h2 with he2 | h2'
        · exfalso
          exact hnd.1 (he2 ▸ (List.mem_map.mpr ⟨(a, b), h1', rfl⟩))
        · exact ih hnd.2 h1' h2'

/-- Who gets notified: a registered subscriber fires iff one of its
accessed paths relates to one of the changed paths. -/
theorem mem_notifyRelevantListeners
    (listeners : List (Nat × List Path)) (changed : List Path)
    (r : Nat) (aps : List Path)
    (hnd : (listeners.map Prod.fst).Nodup) (hmem : (r, aps) ∈ listeners) :
    r ∈ notifyRelevantListeners listeners changed
      ↔ ∃ a ∈ aps, ∃ c ∈ changed, pathRelates a c = true := by
  unfold notifyRelevantListeners
  rw [List.mem_map]
  constructor
  · rintro ⟨⟨r', aps'⟩, hentry, hfst⟩
    simp only at hfst
    subst hfst
    have hentry' := List.mem_filter.mp hentry
    have : aps' = aps := assoc_nodup_eq _ hnd hentry'.1 hmem
    subst this
    have hp := hentry'.2
    simp only [List.any_eq_true] at hp
    exact hp
  · rintro ⟨a, ha, c, hc, hrel⟩
    refine ⟨(r, aps), List.mem_filter.mpr ⟨hmem, ?_⟩, rfl⟩
    simp only [List.any_eq_true]
    exact ⟨a, ha, c, hc, hrel⟩

/-! ## Generic association-list lemmas (JS property maps) -/

theorem slookup_cons {ω : Type} (kv : String × ω) (rest : List (String × ω))
    (k : String) :
    ((kv :: rest).lookup k) = if kv.1 = k then some kv.2 else rest.lookup k := by
  obtain ⟨k', v'⟩ := kv
  rw [List.lookup_cons]
  by_cases h : k' = k
  · subst h; simp
  · have hb : (k == k') = false := by simpa [beq_iff_eq] using Ne.symm h
    simp [hb, h]

theorem aset_lookup_self {ω : Type} (l : List (String × ω)) (k : String)
    (v : ω) : (aset l k v).lookup k = some v := by
  unfold aset
  split
  · rename_i h
    induction l with
    | nil => simp at h
    | cons e rest ih =>
        simp only [List.any_cons, Bool.or_eq_true, decide_eq_true_eq] at h
        by_cases hk : e.1 = k
        · simp only [List.map_cons, if_pos hk]
          rw [slookup_cons, if_pos rfl]
        · simp only [List.map_cons, if_neg hk]
          rw [slookup_cons, if_neg hk]
          exact ih (h.resolve_left hk)
  · induction l with
    | nil => simp [List.lookup]
    | cons e rest ih =>
        rename_i h
        simp only [List.any_cons, Bool.or_eq_true, decide_eq_true_eq, not_or] at h
        rw [List.cons_append, slookup_cons, if_neg h.1]
        exact ih (by simpa using h.2)

theorem aset_map_lookup_other {ω : Type} (l : List (String × ω))
    (k k' : String) (v : ω) (h : k' ≠ k) :
    (l.map (fun e => if e.1 = k then (k, v) else e)).lookup k' = l.lookup k' := by
  induction l with
  | nil => rfl
  | cons e rest ih =>
      by_cases hk : e.1 = k
      · simp only [List.map_cons, if_pos hk]
        rw [slookup_cons, slookup_cons, if_neg (fun hh : k = k' => h hh.symm),
          if_neg (fun hh : e.1 = k' => h (hh ▸ hk ▸ rfl)), ih]
      · simp only [List.map_cons, if_neg hk]
        rw [slookup_cons, slookup_cons, ih]

theorem aset_lookup_other {ω : Type} (l : List (String × ω)) (k k' : String)
    (v : ω) (h : k' ≠ k) : (aset l k v).lookup k' = l.lookup k' := by
  unfold aset
  split
  · exact aset_map_lookup_other l k k' v h
  · rw [List.lookup_append]
    cases hl : l.lookup k' with
    | some w => simp [hl]
    | none =>
        rw [Option.none_or, slookup_cons, if_neg (Ne.symm h)]
        rfl

/-! ## DomNode operation lemmas -/

/-- Whether a node is an element node. -/
def DomNode.isElem : DomNode → Bool
  | .text _ _ => false
  | .elem _ _ _ _ _ _ => true

theorem domSetProp_idOf (n : DomNode) (k : String) (v : PVal) :
    (domSetProp n k v).idOf = n.idOf := by cases n <;> rfl

theorem domRemoveAttr_idOf (n : DomNode) (k : String) :
    (domRemoveAttr n k).idOf = n.idOf := by cases n <;> rfl

theorem domSetAttr_idOf (n : DomNode) (k : String) (v : PVal) :
    (domSetAttr n k v).idOf = n.idOf := by cases n <;> rfl

theorem domAddListener_idOf (n : DomNode) (ev : String) (f : Nat) :
    (domAddListener n ev f).idOf = n.idOf := by
  cases n with
  | text i s => rfl
  | elem i t a p l c =>
      simp only [domAddListener]
      split <;> rfl

theorem domRemoveListener_idOf (n : DomNode) (ev : String) (f : Nat) :
    (domRemoveListener n ev f).idOf = n.idOf := by cases n <;> rfl

theorem domSetProp_isElem (n : DomNode) (k : String) (v : PVal) :
    (domSetProp n k v).isElem = n.isElem := by cases n <;> rfl

theorem domRemoveAttr_isElem (n : DomNode) (k : String) :
    (domRemoveAttr n k).isElem = n.isElem := by cases n <;> rfl

theorem domSetAttr_isElem (n : DomNode) (k : String) (v : PVal) :
    (domSetAttr n k v).isElem = n.isElem := by cases n <;> rfl

theorem domAddListener_isElem (n : DomNode) (ev : String) (f : Nat) :
    (domAddListener n ev f).isElem = n.isElem := by
  cases n with
  | text i s => rfl
  | elem i t a p l c =>
      simp only [domAddListener]
      split <;> rfl

theorem domRemoveListener_isElem (n : DomNode) (ev : String) (f : Nat) :
    (domRemoveListener n ev f).isElem = n.isElem := by cases n <;> rfl

theorem domGetProp_domSetProp_self (n : DomNode) (k : String) (v : PVal)
    (he : n.isElem = true) : domGetProp (domSetProp n k v) k = some v := by
  cases n with
  | text i s => simp [DomNode.isElem] at he
  | elem i t a p l c => exact aset_lookup_self p k v

theorem domGetProp_domSetProp_other (n : DomNode) (k k' : String) (v : PVal)
    (h : k' ≠ k) : domGetProp (domSetProp n k v) k' = domGetProp n k' := by
  cases n with
  | text i s => rfl
  | elem i t a p l c => exact aset_lookup_other p k k' v h

theorem domGetProp_domRemoveAttr (n : DomNode) (k k' : String) :
    domGetProp (domRemoveAttr n k) k' = domGetProp n k' := by cases n <;> rfl

theorem domGetProp_domSetAttr (n : DomNode) (k k' : String) (v : PVal) :
    domGetProp (domSetAttr n k v) k' = domGetProp n k' := by cases n <;> rfl

theorem domGetProp_domAddListener (n : DomNode) (ev : String) (f : Nat)
    (k' : String) : domGetProp (domAddListener n ev f) k' = domGetProp n k' := by
  cases n with
  | text i s => rfl
  | elem i t a p l c =>
      simp only [domAddListener]
      split <;> rfl

theorem domGetProp_domRemoveListener (n : DomNode) (ev : String) (f : Nat)
    (k' : String) :
    domGetProp (domRemoveListener n ev f) k' = domGetProp n k' := by
  cases n <;> rfl

/-! ## `patchProps` step lemmas (for C6) -/

/-- The event branch never touches element properties and never logs a
`setProp`. -/
theorem patchPropsEvents_props (el : DomNode) (k : String)
    (oldValue : Option PVal) (v : PVal) (key : String) :
    domGetProp (patchPropsEvents el k oldValue v).1 key = domGetProp el key
    ∧ (∀ w, WOp.setProp key w ∉ (patchPropsEvents el k oldValue v).2)
    ∧ (patchPropsEvents el k oldValue v).1.isElem = el.isElem
    ∧ (patchPropsEvents el k oldValue v).1.idOf = el.idOf := by
  unfold patchPropsEvents
  split
  · rcases holv : oldValue with _ | pv
    · cases v <;>
        exact ⟨by simp [domGetProp_domAddListener], by simp,
          by simp [domAddListener_isElem], by simp [domAddListener_idOf]⟩
    · cases pv <;> cases v <;>
        exact ⟨by simp [domGetProp_domAddListener,
            domGetProp_domRemoveListener], by simp,
          by simp [domAddListener_isElem, domRemoveListener_isElem],
          by simp [domAddListener_idOf, domRemoveListener_idOf]⟩
  · exact ⟨rfl, by simp, rfl, rfl⟩

/-- A step for a key other than `key` (where `key` is `value` or
`checked`) never touches the element property `key` and never logs a
`setProp key` operation. -/
theorem patchPropsStep_other_key
    (el : DomNode) (newProps oldProps : Props) (k key : String)
    (hkey : key = "value" ∨ key = "checked") (hne : k ≠ key) :
    domGetProp (patchPropsStep el newProps oldProps k).1 key
        = domGetProp el key
    ∧ (∀ w, WOp.setProp key w ∉ (patchPropsStep el newProps oldProps k).2)
    ∧ (patchPropsStep el newProps oldProps k).1.isElem = el.isElem
    ∧ (patchPropsStep el newProps oldProps k).1.idOf = el.idOf := by
  have hdisN : "disabled" ≠ key := by
    rcases hkey with rfl | rfl <;> decide
  by_cases h1 : newProps.lookup k = none ∨ newProps.lookup k = some .null
  · simp only [patchPropsStep, if_pos h1]
    exact ⟨domGetProp_domRemoveAttr el k key, by simp,
      domRemoveAttr_isElem el k, domRemoveAttr_idOf el k⟩
  · by_cases h2 : k = "value" ∨ k = "checked"
    · by_cases h3 : domGetProp el k ≠ some ((newProps.lookup k).getD .null)
      · simp only [patchPropsStep, if_neg h1, if_pos h2, if_pos h3]
        refine ⟨domGetProp_domSetProp_other el k key _ (Ne.symm hne), ?_,
          domSetProp_isElem _ _ _, domSetProp_idOf _ _ _⟩
        intro w hw
        simp only [List.mem_singleton] at hw
        cases hw
        exact hne rfl
      · simp [patchPropsStep, if_neg h1, if_pos h2, if_neg h3]
    · by_cases h4 : oldProps.lookup k = newProps.lookup k
      · simp [patchPropsStep, if_neg h1, if_neg h2, if_pos h4]
      · have hev := patchPropsEvents_props el k (oldProps.lookup k)
          ((newProps.lookup k).getD .null) key
        by_cases h5 : k = "disabled"
        · simp only [patchPropsStep, if_neg h1, if_neg h2, if_neg h4, if_pos h5]
          refine ⟨?_, ?_, ?_, ?_⟩
          · rw [domGetProp_domSetProp_other _ _ _ _ (Ne.symm hdisN)]
            exact hev.1
          · intro w hw
            rcases List.mem_append.mp hw with h | h
            · exact hev.2.1 w h
            · simp only [List.mem_singleton] at h
              cases h
              exact hdisN rfl
          · rw [domSetProp_isElem]
            exact hev.2.2.1
          · rw [domSetProp_idOf]
            exact hev.2.2.2
        · simp only [patchPropsStep, if_neg h1, if_neg h2, if_neg h4, if_neg h5]
          refine ⟨?_, ?_, ?_, ?_⟩
          · rw [domGetProp_domSetAttr]
            exact hev.1
          · intro w hw
            rcases List.mem_append.mp hw with h | h
            · exact hev.2.1 w h
            · simp at h
          · rw [domSetAttr_isElem]
            exact hev.2.2.1
          · rw [domSetAttr_idOf]
            exact hev.2.2.2

/-- The step for `key` itself (with a non-null new value `v`): the live
property is compared and written only when it differs. -/
theorem patchPropsStep_value_key
    (el : DomNode) (newProps oldProps : Props) (key : String) (v : PVal)
    (hkey : key = "value" ∨ key = "checked")
    (hnew : newProps.lookup key = some v) (hv : v ≠ .null)
    (helem : el.isElem = true) :
    domGetProp (patchPropsStep el newProps oldProps key).1 key = some v
    ∧ ((patchPropsStep el newProps oldProps key).2
        = if domGetProp el key = some v then [] else [.setProp key v])
    ∧ (patchPropsStep el newProps oldProps key).1.isElem = true
    ∧ (patchPropsStep el newProps oldProps key).1.idOf = el.idOf := by
  have h1 : ¬(newProps.lookup key = none ∨ newProps.lookup key = some .null) := by
    simp [hnew, hv]
  by_cases hlive : domGetProp el key = some v
  · have h3 : ¬domGetProp el key ≠ some ((newProps.lookup key).getD .null) := by
      simp [hnew, hlive]
    simp [patchPropsStep, if_neg h1, if_pos hkey, if_neg h3, hnew, hv, hlive,
      helem]
  · have h3 : domGetProp el key ≠ some ((newProps.lookup key).getD .null) := by
      simp only [hnew, Option.getD_some]
      exact hlive
    simp only [patchPropsStep, if_neg h1, if_pos hkey, if_pos h3]
    simp [hnew, hlive, domGetProp_domSetProp_self el key v helem,
      domSetProp_isElem, helem, domSetProp_idOf]

theorem lookup_mem_keys {ω : Type} (l : List (String × ω)) (k : String)
    (v : ω) (h : l.lookup k = some v) : k ∈ l.map Prod.fst := by
  induction l with
  | nil => simp [List.lookup] at h
  | cons e rest ih =>
      rw [slookup_cons] at h
      by_cases hk : e.1 = k
      · exact List.mem_map.mpr ⟨e, List.mem_cons_self _ _, hk⟩
      · rw [if_neg hk] at h
        exact List.mem_cons_of_mem _ (ih h)

theorem unionKeys_nodup (oldProps newProps : Props)
    (hold : (oldProps.map Prod.fst).Nodup)
    (hnew : (newProps.map Prod.fst).Nodup) :
    (unionKeys oldProps newProps).Nodup := by
  unfold unionKeys
  rw [List.nodup_append]
  refine ⟨hold, hnew.filter _, ?_⟩
  intro a ha hb
  have hb' := List.mem_filter.mp hb
  simp only [Bool.not_eq_true'] at hb'
  exact absurd ha (by simpa using hb'.2)

theorem mem_unionKeys_of_new (oldProps newProps : Props) (key : String)
    (h : key ∈ newProps.map Prod.fst) : key ∈ unionKeys oldProps newProps := by
  unfold unionKeys
  rw [List.mem_append]
  by_cases hmem : key ∈ oldProps.map Prod.fst
  · exact Or.inl hmem
  · refine Or.inr (List.mem_filter.mpr ⟨h, ?_⟩)
    simpa using hmem

theorem nodup_split {α : Type} [DecidableEq α] (l : List α) (a : α)
    (hmem : a ∈ l) (hnd : l.Nodup) :
    ∃ pre post, l = pre ++ a :: post ∧ a ∉ pre ∧ a ∉ post := by
  obtain ⟨pre, post, rfl⟩ := List.append_of_mem hmem
  rw [List.nodup_append] at hnd
  refine ⟨pre, post, rfl, ?_, ?_⟩
  · intro hp
    exact hnd.2.2 hp (List.mem_cons_self _ _)
  · exact (List.nodup_cons.mp hnd.2.1).1

/-- Folding `patchProps` steps over keys avoiding `key` leaves the live
property `key` and its write log untouched. -/
theorem patchProps_fold_no_key
    (ks : List String) (newProps oldProps : Props) (key : String)
    (hkey : key = "value" ∨ key = "checked") (hks : key ∉ ks)
    (el : DomNode) (log : List WOp) :
    domGetProp (ks.foldl (fun acc k =>
        let r := patchPropsStep acc.1 newProps oldProps k
        (r.1, acc.2 ++ r.2)) (el, log)).1 key = domGetProp el key
    ∧ (∀ w, WOp.setProp key w ∈ (ks.foldl (fun acc k =>
        let r := patchPropsStep acc.1 newProps oldProps k
        (r.1, acc.2 ++ r.2)) (el, log)).2 → WOp.setProp key w ∈ log)
    ∧ (ks.foldl (fun acc k =>
        let r := patchPropsStep acc.1 newProps oldProps k
        (r.1, acc.2 ++ r.2)) (el, log)).1.isElem = el.isElem
    ∧ (ks.foldl (fun acc k =>
        let r := patchPropsStep acc.1 newProps oldProps k
        (r.1, acc.2 ++ r.2)) (el, log)).1.idOf = el.idOf := by
  induction ks generalizing el log with
  | nil => exact ⟨rfl, fun w h => h, rfl, rfl⟩
  | cons k rest ih =>
      have hkne : k ≠ key := fun he => hks (he ▸ List.mem_cons_self _ _)
      have hrest : key ∉ rest := fun hr => hks (List.mem_cons_of_mem _ hr)
      have hstep := patchPropsStep_other_key el newProps oldProps k key hkey hkne
      simp only [List.foldl_cons]
      have ihr := ih hrest (patchPropsStep el newProps oldProps k).1
        (log ++ (patchPropsStep el newProps oldProps k).2)
      refine ⟨?_, ?_, ?_, ?_⟩
      · rw [ihr.1, hstep.1]
      · intro w hw
        have := ihr.2.1 w hw
        rcases List.mem_append.mp this with h | h
        · exact h
        · exact absurd h (hstep.2.1 w)
      · rw [ihr.2.2.1, hstep.2.2.1]
      · rw [ihr.2.2.2, hstep.2.2.2]

/-- **C6.** During the property diff, `value` and `checked` are compared
against the live current value of the underlying node — not the previous
VNode's recorded value, which the statement quantifies over freely — and
written only when the live value differs from the new value: after
`patchProps` the live property always equals the new value; no
`setProp key` write is logged when the live value already equals it; a
write is logged when it differs.  Consequently a re-render restating the
value the state already held (old prop = new prop = `v`) still forces an
out-of-band live value back to `v`. -/
theorem patchProps_value_against_live
    (el : DomNode) (newProps oldProps : Props) (key : String) (v : PVal)
    (hkey : key = "value" ∨ key = "checked")
    (hnew : newProps.lookup key = some v) (hv : v ≠ .null)
    (helem : el.isElem = true)
    (hndo : (oldProps.map Prod.fst).Nodup)
    (hndn : (newProps.map Prod.fst).Nodup) :
    domGetProp (patchProps el newProps oldProps).1 key = some v
    ∧ (domGetProp el key = some v →
        ∀ w, WOp.setProp key w ∉ (patchProps el newProps oldProps).2)
    ∧ (domGetProp el key ≠ some v →
        WOp.setProp key v ∈ (patchProps el newProps oldProps).2) := by
  obtain ⟨pre, post, hsplit, hpre, hpost⟩ :=
    nodup_split (unionKeys oldProps newProps) key
      (mem_unionKeys_of_new oldProps newProps key
        (lookup_mem_keys newProps key v hnew))
      (unionKeys_nodup oldProps newProps hndo hndn)
  unfold patchProps
  rw [hsplit, List.foldl_append, List.foldl_cons]
  have hfpre := patchProps_fold_no_key pre newProps oldProps key hkey hpre el []
  set r1 := pre.foldl (fun acc k =>
      let r := patchPropsStep acc.1 newProps oldProps k
      (r.1, acc.2 ++ r.2)) (el, []) with hr1
  have hstep := patchPropsStep_value_key r1.1 newProps oldProps key v hkey
    hnew hv (by rw [hfpre.2.2.1]; exact helem)
  have hlive1 : domGetProp r1.1 key = domGetProp el key := hfpre.1
  have hfpost := patchProps_fold_no_key post newProps oldProps key hkey hpost
    (patchPropsStep r1.1 newProps oldProps key).1
    (r1.2 ++ (patchPropsStep r1.1 newProps oldProps key).2)
  refine ⟨?_, ?_, ?_⟩
  · rw [hfpost.1, hstep.1]
  · intro hsame w hw
    have hw' := hfpost.2.1 w hw
    rcases List.mem_append.mp hw' with h | h
    · exact absurd (hfpre.2.1 w h) (by simp)
    · rw [hstep.2.1, hlive1, if_pos hsame] at h
      simp at h
  · intro hdiff
    have : WOp.setProp key v ∈ (patchPropsStep r1.1 newProps oldProps key).2 := by
      rw [hstep.2.1, hlive1, if_neg hdiff]
      exact List.mem_singleton.mpr rfl
    -- the post fold only appends to the log
    have hsub : ∀ (ks : List String) (acc : DomNode × List WOp) (w : WOp),
        w ∈ acc.2 → w ∈ (ks.foldl (fun acc k =>
          let r := patchPropsStep acc.1 newProps oldProps k
          (r.1, acc.2 ++ r.2)) acc).2 := by
      intro ks
      induction ks with
      | nil => exact fun acc w h => h
      | cons k rest ih =>
          intro acc w h
          simp only [List.foldl_cons]
          exact ih _ w (List.mem_append.mpr (Or.inl h))
    exact hsub post _ _ (List.mem_append.mpr (Or.inr this))

/-- Witness for C6: the input-drift scenario.  The live input holds
`"typed"` (out-of-band change); the old and new VNode props both say
`value: "state"`; the diff still writes `"state"` back, and the final
live value is `"state"`. -/
theorem patchProps_value_against_live_witness :
    domGetProp (patchProps (.elem 1 "input" [] [("value", .str "typed")] [] [])
        [("value", .str "state")] [("value", .str "state")]).1 "value"
      = some (.str "state")
    ∧ (domGetProp (.elem 1 "input" [] [("value", .str "typed")] [] []) "value"
          = some (.str "state") →
        ∀ w, WOp.setProp "value" w ∉ (patchProps
          (.elem 1 "input" [] [("value", .str "typed")] [] [])
          [("value", .str "state")] [("value", .str "state")]).2)
    ∧ (domGetProp (.elem 1 "input" [] [("value", .str "typed")] [] []) "value"
          ≠ some (.str "state") →
        WOp.setProp "value" (.str "state") ∈ (patchProps
          (.elem 1 "input" [] [("value", .str "typed")] [] [])
          [("value", .str "state")] [("value", .str "state")]).2) :=
  patchProps_value_against_live
    (.elem 1 "input" [] [("value", .str "typed")] [] [])
    [("value", .str "state")] [("value", .str "state")] "value" (.str "state")
    (Or.inl rfl) rfl (by decide) rfl (by decide) (by decide)

/-! ## Cleanup traversal lemmas (for C4) -/

mutual

/-- Specification-level collector: the cleanup callbacks registered by
every nested component of a subtree, each listed once per registration,
in the reconciler's traversal order. -/
def treeCleanups : VNode → List Nat
  | .prim _ => []
  | .elem _ _ children _ => treeCleanupsList children
  | .comp _ _ _ children _ child hooks =>
      (match hooks with | some h => h.cleanups | none => [])
        ++ (match child with | some c => treeCleanups c | none => [])
        ++ treeCleanupsList children

def treeCleanupsList : List VNode → List Nat
  | [] => []
  | c :: rest => treeCleanups c ++ treeCleanupsList rest

end

mutual

theorem runUnmountV_log : (v : VNode) → (log : List Nat) →
    runUnmountV v log = log ++ treeCleanups v
  | .prim p, log => by
      simp only [runUnmountV, treeCleanups]
      simp
  | .elem t p children el, log => by
      simp only [runUnmountV, treeCleanups]
      exact runUnmountList_log children log
  | .comp fid r p children el child hooks, log => by
      cases hooks with
      | none =>
          cases child with
          | none =>
              simp only [runUnmountV, treeCleanups]
              rw [runUnmountList_log children]
              simp
          | some c =>
              simp only [runUnmountV, treeCleanups]
              rw [runUnmountV_log c, runUnmountList_log children]
              simp [List.append_assoc]
      | some h =>
          cases child with
          | none =>
              simp only [runUnmountV, treeCleanups]
              rw [runUnmountList_log children]
              simp [List.append_assoc]
          | some c =>
              simp only [runUnmountV, treeCleanups]
              rw [runUnmountV_log c, runUnmountList_log children]
              simp [List.append_assoc]

theorem runUnmountList_log : (vs : List VNode) → (log : List Nat) →
    runUnmountList vs log = log ++ treeCleanupsList vs
  | [], log => by
      simp only [runUnmountList, treeCleanupsList]
      simp
  | c :: rest, log => by
      simp only [runUnmountList, treeCleanupsList]
      rw [runUnmountV_log c, runUnmountList_log rest]
      simp [List.append_assoc]

end

/-- **C4 (amended).** Cleanup behaviour of the two removal paths.
(a) When the new VNode is absent and the old one present, `patch` runs
`runUnmount` first: every cleanup registered by every nested component
of the removed subtree is invoked — the log extends by exactly the
registration list, each exactly once, in traversal order — and only then
is the live node removed.
(b) The keyed path removes an old keyed child that no new child matched
**without invoking any cleanup**: reconciling a rendered keyed component
carrying registered cleanup hooks against a single differently-keyed new
element removes its live node while leaving the cleanup log untouched. -/
theorem unmount_cleanup_semantics
    (fuel : Nat) (st : RtState) (cs : List DomNode) (old : VNode) (index : Nat)
    (fid : Nat) (render : Props → VNode × List LReg) (props : Props)
    (kids : List VNode) (e : Nat) (childV : VNode) (hooks : Hooks)
    (dn : DomNode)
    (hdn : dn.idOf = e) (hne : st.nextId ≠ e)
    (hkey : props.lookup "key" = some (.str "a")) :
    (∃ cs' st',
      patch (fuel + 1) st cs none (some old) index = some (cs', none, st')
      ∧ st'.cleanupLog = st.cleanupLog ++ treeCleanups old
      ∧ cs' = (match old.elOf <|> (cs.get? index).map DomNode.idOf with
          | some e' => removeById cs e'
          | none => cs))
    ∧ (∃ cs' upd st',
        reconcileChildren (fuel + 1) st [dn]
          [.elem "li" [("key", .str "b")] [] none]
          [.comp fid render props kids (some e) (some childV) (some hooks)]
          = some (cs', upd, st')
        ∧ st'.cleanupLog = st.cleanupLog
        ∧ e ∉ idsOf cs') := by
  constructor
  · refine ⟨(match old.elOf <|> (cs.get? index).map DomNode.idOf with
        | some e' => removeById cs e'
        | none => cs),
      { st with cleanupLog := st.cleanupLog ++ treeCleanups old }, ?_, rfl, rfl⟩
    simp only [patch.eq_def]
    rw [runUnmountV_log]
  · have hkold : keyOfChild
        (.comp fid render props kids (some e) (some childV) (some hooks)) 0
        = "a" := by
      simp [keyOfChild, hkey, pvalKeyStr]
    have hmap : buildKeyedMap
        [.comp fid render props kids (some e) (some childV) (some hooks)]
        = [("a", (.comp fid render props kids (some e) (some childV)
            (some hooks), 0))] := by
      simp [buildKeyedMap, hkold, aset]
    have hce : createElement (fuel + 1) st
        (.elem "li" [("key", .str "b")] [] none)
      = some (.elem st.nextId "li" [("key", .str "b")] [] [] [],
          .elem "li" [("key", .str "b")] [] (some st.nextId),
          { st with nextId := st.nextId + 1 }) := by
      simp [createElement.eq_def, createChildren.eq_def, patchProps, unionKeys,
        patchPropsStep, patchPropsEvents, aset, domSetAttr, domWithChildren]
    have hkl : keyedLoop (fuel + 1) st [dn]
        [("a", (.comp fid render props kids (some e) (some childV)
            (some hooks), 0))]
        [.elem "li" [("key", .str "b")] [] none] 0 []
      = some ([.elem st.nextId "li" [("key", .str "b")] [] [] [], dn],
          [("a", (.comp fid render props kids (some e) (some childV)
            (some hooks), 0))],
          [.elem "li" [("key", .str "b")] [] (some st.nextId)],
          { st with nextId := st.nextId + 1 }) := by
      have hins : insertNodeBefore [dn]
          (DomNode.elem st.nextId "li" [("key", PVal.str "b")] [] [] [])
          (some dn.idOf)
          = [DomNode.elem st.nextId "li" [("key", PVal.str "b")] [] [] [], dn] := by
        simp [insertNodeBefore]
      simp [keyedLoop.eq_def, keyOfChild, pvalKeyStr, List.lookup, hce, hins]
    have hrc : reconcileChildren (fuel + 1) st [dn]
        [.elem "li" [("key", .str "b")] [] none]
        [.comp fid render props kids (some e) (some childV) (some hooks)]
      = some ([.elem st.nextId "li" [("key", .str "b")] [] [] []],
          [.elem "li" [("key", .str "b")] [] (some st.nextId)],
          { st with nextId := st.nextId + 1 }) := by
      rw [reconcileChildren.eq_def]
      rw [if_neg (by simp [hasKeys, vnodeHasKey])]
      simp only [hmap, hkl]
      have hrm : removeUnmatched
          [("a", (VNode.comp fid render props kids (some e) (some childV)
              (some hooks), 0))]
          [DomNode.elem st.nextId "li" [("key", PVal.str "b")] [] [] [], dn]
        = [DomNode.elem st.nextId "li" [("key", PVal.str "b")] [] [] []] := by
        have hb1 : ((DomNode.elem st.nextId "li" [("key", PVal.str "b")]
            [] [] []).idOf == e) = false := by
          simp [DomNode.idOf]
          exact hne
        have hb2 : (dn.idOf == e) = true := by simp [hdn]
        simp only [removeUnmatched, List.foldl_cons, List.foldl_nil, VNode.elOf]
        rw [if_pos (by simp [idsOf, hdn])]
        simp [removeById, List.eraseP_cons, hb1, hb2]
      rw [hrm]
    rw [hrc]
    refine ⟨_, _, _, rfl, rfl, ?_⟩
    simp only [idsOf, DomNode.idOf, List.map_cons, List.map_nil,
      List.mem_singleton]
    exact Ne.symm hne

/-- A rendered keyed component instance: key `"x"`, live node `200`,
registered cleanup callback `7` (as `createElement` would leave it). -/
def c4Old : VNode :=
  .comp 50 (fun _ => (.elem "div" [] [.prim (.str "Child")] none,
      [.cleanup 7]))
    [("key", .str "x")] [] (some 200)
    (some (.elem "div" [] [.prim (.str "Child")] (some 200)))
    (some ⟨[], [7]⟩)

/-- The live node of `c4Old`. -/
def c4Dom : DomNode := .elem 200 "div" [] [] [] [.text 201 "Child"]

/-- **C4 (counterexample to the claim as stated).** The old children
hold one keyed component (`c4Old`, key `"x"`) with registered cleanup
`7` and live node `200`; the new children hold a single keyed element
with the different key `"y"`, so the old entry is matched by no new
child.  Reconciliation removes live node `200` (the resulting ids are
`[202]`, the fresh element only), but the invoked-cleanup log stays
empty even though the removed subtree has the registered cleanup `7`:
the keyed-unmatched removal path skips `runUnmount`. -/
theorem keyed_removal_skips_cleanups_counterexample :
    (reconcileChildren 10 ⟨202, [], []⟩ [c4Dom]
        [.elem "li" [("key", .str "y")] [] none] [c4Old]).map
        (fun r => (r.1.map DomNode.idOf, r.2.2.cleanupLog))
      = some ([202], [])
    ∧ treeCleanups c4Old = [7] := by
  constructor
  · simp [reconcileChildren.eq_def, keyedLoop.eq_def, createElement.eq_def,
      createChildren.eq_def, keyOfChild, pvalKeyStr, buildKeyedMap, aset,
      hasKeys, vnodeHasKey, insertNodeBefore, removeUnmatched, removeById,
      idsOf, findById, List.lookup, c4Old, c4Dom, DomNode.idOf, VNode.elOf,
      patchProps, unionKeys, patchPropsStep, patchPropsEvents, domSetAttr,
      domWithChildren, List.eraseP_cons]
  · simp [c4Old, treeCleanups, treeCleanupsList]

/-- Witness for the amended C4 at a concrete unmount and a concrete
keyed-removal scenario. -/
theorem unmount_cleanup_semantics_witness :
    (∃ cs' st',
      patch 6 ⟨202, [], []⟩ [] none (some c4Old) 0 = some (cs', none, st')
      ∧ st'.cleanupLog = [] ++ treeCleanups c4Old
      ∧ cs' = (match c4Old.elOf <|> (([] : List DomNode).get? 0).map
            DomNode.idOf with
          | some e' => removeById [] e'
          | none => ([] : List DomNode)))
    ∧ (∃ cs' upd st',
        reconcileChildren 6 ⟨202, [], []⟩
          [DomNode.elem 200 "div" [] [] [] []]
          [.elem "li" [("key", .str "b")] [] none]
          [.comp 50 (fun _ => (.elem "div" [] [.prim (.str "Child")] none,
              [.cleanup 7]))
            [("key", .str "a")] [] (some 200)
            (some (.elem "div" [] [.prim (.str "Child")] (some 200)))
            (some ⟨[], [7]⟩)]
          = some (cs', upd, st')
        ∧ st'.cleanupLog = ([] : List Nat)
        ∧ 200 ∉ idsOf cs') := by
  have h := unmount_cleanup_semantics 5 ⟨202, [], []⟩ [] c4Old 0
    50 (fun _ => (.elem "div" [] [.prim (.str "Child")] none, [.cleanup 7]))
    [("key", .str "a")] [] 200
    (.elem "div" [] [.prim (.str "Child")] (some 200)) ⟨[], [7]⟩
    (DomNode.elem 200 "div" [] [] [] []) rfl (by decide) rfl
  exact h

/-! ## C9 and C10 -/

/-- **C9.** For every call `h(tag, props, children)` — `children` a single
value or a list containing nested arrays — the returned VNode's children
is the flat ordered list obtained by `.flat()`-flattening and then
dropping exactly the entries that are `null`, `undefined`, `false`, or
`''`: the result is an order-preserving sublist of the flattened input,
an entry occurs in it exactly as often as in the flattened input unless
it is one of the four dropped values (then never) — so strings, numbers
including `0`, and VNodes are kept in order — and in particular
`h('div', {}, ['A', null, undefined, false, '', 'B'])` yields exactly
the two children `'A'` and `'B'`. -/
theorem h_children_flatten_and_filter :
    (∀ (π : Type) (tag : String) (props : π) (children : HArg),
      (hFn tag props children).children.Sublist
          (flattenOnce (childArrayOf children))
      ∧ ∀ c : HChild, (hFn tag props children).children.count c
          = if c = .jsNull ∨ c = .jsUndef ∨ c = .bool false ∨ c = .str ""
            then 0 else (flattenOnce (childArrayOf children)).count c)
    ∧ (hFn "div" (0 : Nat)
        (.many [.atom (.str "A"), .atom .jsNull, .atom .jsUndef,
          .atom (.bool false), .atom (.str ""), .atom (.str "B")])).children
      = [.str "A", .str "B"] := by
  have keepIff : ∀ c : HChild, keepChild c = false
      ↔ (c = .jsNull ∨ c = .jsUndef ∨ c = .bool false ∨ c = .str "") := by
    intro c
    rcases c with _ | _ | b | s | n | i
    · simp [keepChild]
    · simp [keepChild]
    · cases b <;> simp [keepChild]
    · by_cases hs : s = "" <;> simp [keepChild, hs]
    · simp [keepChild]
    · simp [keepChild]
  refine ⟨fun π tag props children => ⟨List.filter_sublist _, fun c => ?_⟩, by decide⟩
  by_cases hkeep : keepChild c = true
  · rw [hFn, List.count_filter hkeep,
      if_neg (fun h => by rw [(keepIff c).mpr h] at hkeep; exact absurd hkeep (by simp))]
  · rw [if_pos ((keepIff c).mp (Bool.eq_false_iff.mpr hkeep))]
    rw [hFn, List.count_eq_zero]
    intro hmem
    have h := List.mem_filter.mp hmem
    exact hkeep h.2

/-- Changed-path membership for an object merge. -/
theorem mem_changedKeys (ks : List String) (acc : List Path) (p : Path) :
    p ∈ ks.foldl (fun acc k => addPath acc [k]) acc
      ↔ p ∈ acc ∨ ∃ k ∈ ks, p = [k] := by
  rw [← List.foldl_map, mem_foldl_addPath]
  simp only [List.mem_map]
  constructor
  · rintro (h | ⟨k, hk, rfl⟩)
    · exact Or.inl h
    · exact Or.inr ⟨k, hk, rfl⟩
  · rintro (h | ⟨k, hk, rfl⟩)
    · exact Or.inl h
    · exact Or.inr ⟨k, hk, rfl⟩

/-! ## `Map.set` lemmas for the listener map -/

theorem listenersSet_keys (ls : List (Nat × List Path)) (k : Nat)
    (v : List Path) :
    (listenersSet ls k v).map Prod.fst
      = if ls.any (fun e => e.1 = k) then ls.map Prod.fst
        else ls.map Prod.fst ++ [k] := by
  unfold listenersSet
  split
  · rw [List.map_map]
    congr 1
    funext e
    by_cases h : e.1 = k
    · simp [h]
    · simp [h]
  · simp

theorem listenersSet_nodup (ls : List (Nat × List Path)) (k : Nat)
    (v : List Path) (hnd : (ls.map Prod.fst).Nodup) :
    ((listenersSet ls k v).map Prod.fst).Nodup := by
  rw [listenersSet_keys]
  split
  · exact hnd
  · rename_i h
    rw [List.nodup_append]
    refine ⟨hnd, List.nodup_singleton _, ?_⟩
    intro a ha hb
    simp only [List.mem_singleton] at hb
    subst hb
    obtain ⟨e, he, hfst⟩ := List.mem_map.mp ha
    exact h (List.any_eq_true.mpr ⟨e, he, by simp [hfst]⟩)

theorem listenersSet_mem_self (ls : List (Nat × List Path)) (k : Nat)
    (v : List Path) : (k, v) ∈ listenersSet ls k v := by
  unfold listenersSet
  split
  · rename_i h
    obtain ⟨e, he, hk⟩ := List.any_eq_true.mp h
    simp only [decide_eq_true_eq] at hk
    exact List.mem_map.mpr ⟨e, he, by simp [hk]⟩
  · exact List.mem_append.mpr (Or.inr (List.mem_singleton.mpr rfl))

theorem natLookup_cons (kv : Nat × List Path) (rest : List (Nat × List Path))
    (k : Nat) :
    ((kv :: rest).lookup k) = if kv.1 = k then some kv.2 else rest.lookup k := by
  obtain ⟨k', v'⟩ := kv
  rw [List.lookup_cons]
  by_cases h : k' = k
  · subst h; simp
  · have hb : (k == k') = false := by simpa [beq_iff_eq] using Ne.symm h
    simp [hb, h]

theorem listenersSet_lookup_self (ls : List (Nat × List Path)) (k : Nat)
    (v : List Path) : (listenersSet ls k v).lookup k = some v := by
  unfold listenersSet
  split
  · rename_i h
    induction ls with
    | nil => simp at h
    | cons e rest ih =>
        simp only [List.any_cons, Bool.or_eq_true, decide_eq_true_eq] at h
        by_cases hk : e.1 = k
        · simp only [List.map_cons, if_pos hk]
          rw [natLookup_cons, if_pos rfl]
        · simp only [List.map_cons, if_neg hk]
          rw [natLookup_cons, if_neg hk]
          exact ih (h.resolve_left hk)
  · induction ls with
    | nil => simp [List.lookup]
    | cons e rest ih =>
        rename_i h
        simp only [List.any_cons, Bool.or_eq_true, decide_eq_true_eq, not_or] at h
        rw [List.cons_append, natLookup_cons, if_neg h.1]
        exact ih (by simpa using h.2)

/-! ## Cortex constructor lemmas -/

/-- The value the constructor puts into live memory for one input field. -/
def entryValue (o : StorageOracle) (k : String) : MemEntry → JVal
  | .plain v => v
  | .persisted initial cfgKey =>
      loadPersisted o (storageKeyOf k cfgKey) initial

/-- The constructor's per-field step (shared with `cortexConstruct`). -/
def constructStep (o : StorageOracle) (acc : JObj × List (String × String))
    (kv : String × MemEntry) : JObj × List (String × String) :=
  match kv.2 with
  | .plain v => (jset acc.1 kv.1 v, acc.2)
  | .persisted initial configKey =>
      let storageKey := storageKeyOf kv.1 configKey
      (jset acc.1 kv.1 (loadPersisted o storageKey initial),
       acc.2 ++ [(kv.1, storageKey)])

theorem cortexConstruct_eq_foldl (o : StorageOracle)
    (input : List (String × MemEntry)) :
    cortexConstruct o input
      = { memory := (input.foldl (constructStep o) ([], [])).1
          listeners := []
          persistenceMap := (input.foldl (constructStep o) ([], [])).2 } := rfl

theorem construct_foldl_skip (o : StorageOracle)
    (input : List (String × MemEntry)) (acc : JObj × List (String × String))
    (k : String) (hk : k ∉ input.map Prod.fst) :
    jget (input.foldl (constructStep o) acc).1 k = jget acc.1 k := by
  induction input generalizing acc with
  | nil => rfl
  | cons kv rest ih =>
      simp only [List.map_cons, List.mem_cons, not_or] at hk
      rw [List.foldl_cons, ih _ hk.2]
      obtain ⟨k', e'⟩ := kv
      cases e' with
      | plain v => exact jget_jset_other _ _ _ _ hk.1
      | persisted initial cfgKey => exact jget_jset_other _ _ _ _ hk.1

theorem construct_foldl_lookup (o : StorageOracle)
    (input : List (String × MemEntry)) (acc : JObj × List (String × String))
    (k : String) (e : MemEntry)
    (hin : (k, e) ∈ input) (hnd : (input.map Prod.fst).Nodup) :
    jget (input.foldl (constructStep o) acc).1 k = some (entryValue o k e) := by
  induction input generalizing acc with
  | nil => cases hin
  | cons kv rest ih =>
      rw [List.map_cons, List.nodup_cons] at hnd
      rcases List.mem_cons.mp hin with he | hin'
      · subst he
        rw [List.foldl_cons, construct_foldl_skip o rest _ k hnd.1]
        cases e with
        | plain v => exact jget_jset_self _ _ _
        | persisted initial cfgKey => exact jget_jset_self _ _ _
      · rw [List.foldl_cons]
        exact ih _ hin' hnd.2

/-- **C7.** Round-trip with durable storage: constructing a Cortex whose
initial memory holds a persisted marker for field `k`, when the durable
store already holds a parseable serialized value under that field's
storage key, yields a starting live memory whose value for `k` is the
deserialized stored value — not the marker's declared initial value. -/
theorem cortex_construct_roundtrip
    (o : StorageOracle) (input : List (String × MemEntry))
    (k : String) (initial : JVal) (cfgKey : Option String)
    (s : String) (v : JVal)
    (hin : (k, .persisted initial cfgKey) ∈ input)
    (hnd : (input.map Prod.fst).Nodup)
    (hget : o.getItem (storageKeyOf k cfgKey) = .ok (some s))
    (hparse : o.parse s = .ok v) :
    jget (cortexConstruct o input).memory k = some v := by
  rw [cortexConstruct_eq_foldl]
  rw [construct_foldl_lookup o input ([], []) k _ hin hnd]
  simp [entryValue, loadPersisted, hget, hparse, Bind.bind, Except.bind]

/-- Witness for C7 at a concrete store and memory shape. -/
theorem cortex_construct_roundtrip_witness :
    jget (cortexConstruct
      ⟨fun sk => if sk = "user" then .ok (some "st") else .ok none,
       fun s => if s = "st" then .ok (.num 42) else .error (),
       fun _ _ => .ok (), fun _ => ""⟩
      [("user", .persisted (.str "init") none), ("n", .plain (.num 7))]).memory
      "user" = some (.num 42) := by
  exact cortex_construct_roundtrip _ _ "user" (.str "init") none "st" (.num 42)
    (List.mem_cons_self _ _) (by decide) rfl rfl

/-- **C8.** Durable-storage failures never propagate: (a) a read or parse
failure during construction degrades that field to its declared initial
value; (b) the state, changed paths and notification produced by `set`
are independent of the storage oracle, so a failed write leaves the
in-memory update and subscriber notification unaffected; (c) `set`
returns normally for every object-merge call, and for every functional
call whose callback itself completes — the catch blocks confine storage
errors. -/
theorem persistence_failures_contained
    (o : StorageOracle) (input : List (String × MemEntry))
    (k : String) (initial : JVal) (cfgKey : Option String)
    (hin : (k, .persisted initial cfgKey) ∈ input)
    (hnd : (input.map Prod.fst).Nodup)
    (hfail : o.getItem (storageKeyOf k cfgKey) = .error ()
      ∨ ∃ s, o.getItem (storageKeyOf k cfgKey) = .ok (some s)
          ∧ o.parse s = .error ()) :
    jget (cortexConstruct o input).memory k = some initial
    ∧ (∀ (o₁ o₂ : StorageOracle) (st : CortexState) (u : Updater),
        (cortexSet o₁ st u).map
            (fun r => (r.state, r.changedPaths, r.notified))
          = (cortexSet o₂ st u).map
            (fun r => (r.state, r.changedPaths, r.notified)))
    ∧ (∀ (o' : StorageOracle) (st : CortexState) (u : JObj),
        (cortexSet o' st (.merge u)).isSome)
    ∧ (∀ (o' : StorageOracle) (st : CortexState)
        (writes : List (Path × JVal)) (ret : Option JObj),
        (applyWrites st.memory writes []).isSome →
          (cortexSet o' st (.fn writes ret)).isSome) := by
  refine ⟨?_, ?_, ?_, ?_⟩
  · rw [cortexConstruct_eq_foldl]
    rw [construct_foldl_lookup o input ([], []) k _ hin hnd]
    rcases hfail with hf | ⟨s, hg, hp⟩
    · simp [entryValue, loadPersisted, hf, Bind.bind, Except.bind]
    · simp [entryValue, loadPersisted, hg, hp, Bind.bind, Except.bind]
  · intro o₁ o₂ st u
    cases u with
    | merge u => rfl
    | fn writes ret =>
        simp only [cortexSet]
        cases happ : applyWrites st.memory writes [] with
        | none => rfl
        | some p =>
            obtain ⟨clone, changed⟩ := p
            cases ret <;> rfl
  · intro o' st u
    rfl
  · intro o' st writes ret h
    simp only [cortexSet]
    obtain ⟨p, hp⟩ := Option.isSome_iff_exists.mp h
    rw [hp]
    obtain ⟨clone, changed⟩ := p
    cases ret <;> rfl

/-- Witness for C8 at a concrete always-failing store. -/
theorem persistence_failures_contained_witness :
    jget (cortexConstruct
        ⟨fun _ => .error (), fun _ => .error (), fun _ _ => .error (),
         fun _ => ""⟩
        [("user", .persisted (.str "init") (some "uk"))]).memory "user"
      = some (.str "init")
    ∧ (cortexSet
        ⟨fun _ => .error (), fun _ => .error (), fun _ _ => .error (),
         fun _ => ""⟩
        ⟨[("user", .str "x")], [(1, [["user"]])], [("user", "uk")]⟩
        (.merge [("user", .str "y")])).isSome := by
  have h := persistence_failures_contained
    ⟨fun _ => .error (), fun _ => .error (), fun _ _ => .error (), fun _ => ""⟩
    [("user", .persisted (.str "init") (some "uk"))]
    "user" (.str "init") (some "uk")
    (List.mem_cons_self _ _) (by decide) (Or.inl rfl)
  exact ⟨h.1, h.2.2.1 _ _ _⟩

/-! ## C1, C2, C3 — the mutation function and the tracked reads -/

/-- **C1.** For every Cortex and every `set` call with a plain
(non-function) partial-object argument `u`: the resulting memory is the
shallow merge of the prior memory and `u` (new keys override,
field-by-field `u[k] ?? memory[k]`), the changed-path set is exactly
`u`'s top-level keys, and a registered subscriber is re-invoked iff one
of its recorded accessed paths equals a changed path, is a dot-prefix
ancestor of one, or a dot-prefix descendant of one. -/
theorem set_objectMerge_spec
    (o : StorageOracle) (st : CortexState) (u : JObj)
    (hku : (jkeys u).Nodup)
    (hl : (st.listeners.map Prod.fst).Nodup)
    (r : Nat) (aps : List Path) (hr : (r, aps) ∈ st.listeners) :
    ∃ res, cortexSet o st (.merge u) = some res
      ∧ res.state.memory = shallowMerge st.memory u
      ∧ (∀ k, jget res.state.memory k = (jget u k).or (jget st.memory k))
      ∧ res.changedPaths = (jkeys u).map (fun k => [k])
      ∧ (r ∈ res.notified ↔ ∃ a ∈ aps, ∃ k ∈ jkeys u,
          (a = [k] ∨ [k] <+: a ∨ a <+: [k])) := by
  refine ⟨_, rfl, rfl, fun k => jget_shallowMerge st.memory u k, ?_, ?_⟩
  · show (jkeys u).foldl (fun acc k => addPath acc [k]) [] = _
    rw [foldl_addPath_keys (jkeys u) [] hku (by simp)]
    simp
  · show r ∈ notifyRelevantListeners st.listeners
        ((jkeys u).foldl (fun acc k => addPath acc [k]) []) ↔ _
    rw [mem_notifyRelevantListeners st.listeners _ r aps hl hr]
    constructor
    · rintro ⟨a, ha, c, hc, hrel⟩
      obtain ⟨k, hk, rfl⟩ := ((mem_changedKeys (jkeys u) [] c).mp hc).resolve_left
        (by simp)
      refine ⟨a, ha, k, hk, ?_⟩
      simpa using (pathRelates_iff a [k]).mp hrel
    · rintro ⟨a, ha, k, hk, hrel⟩
      refine ⟨a, ha, [k], (mem_changedKeys (jkeys u) [] [k]).mpr
        (Or.inr ⟨k, hk, rfl⟩), ?_⟩
      exact (pathRelates_iff a [k]).mpr (by tauto)

/-- Witness for C1: a listener that read `"a"` and one that read a
descendant `"a.x"` both fire on a merge of key `"a"`; the notified set
and merged memory are computed concretely. -/
theorem set_objectMerge_spec_witness :
    ∃ res, cortexSet
        ⟨fun _ => .ok none, fun _ => .error (), fun _ _ => .ok (),
         fun _ => ""⟩
        ⟨[("a", .num 1), ("b", .num 2)],
         [(1, [["a"]]), (2, [["c"]]), (3, [["a", "x"]])], []⟩
        (.merge [("a", .num 5)]) = some res
      ∧ res.state.memory = shallowMerge [("a", .num 1), ("b", .num 2)]
          [("a", .num 5)]
      ∧ (∀ k, jget res.state.memory k
          = (jget [("a", .num 5)] k).or (jget [("a", .num 1), ("b", .num 2)] k))
      ∧ res.changedPaths = [["a"]]
      ∧ (1 ∈ res.notified ↔ ∃ a ∈ [(["a"] : Path)], ∃ k ∈ ["a"],
          (a = [k] ∨ [k] <+: a ∨ a <+: [k])) := by
  have h := set_objectMerge_spec
    ⟨fun _ => .ok none, fun _ => .error (), fun _ _ => .ok (), fun _ => ""⟩
    ⟨[("a", .num 1), ("b", .num 2)],
     [(1, [["a"]]), (2, [["c"]]), (3, [["a", "x"]])], []⟩
    [("a", .num 5)] (by decide) (by decide) 1 [["a"]] (by decide)
  obtain ⟨res, h1, h2, h3, h4, h5⟩ := h
  exact ⟨res, h1, h2, h3, h4, h5⟩

/-- Helper state for the C2 and C3 counterexamples: a two-field memory
with no persistence and a benign storage oracle. -/
def okOracle : StorageOracle :=
  ⟨fun _ => .ok none, fun _ => .error (), fun _ _ => .ok (), fun _ => ""⟩

/-- **C2 (counterexample to the claim as stated).** Memory
`{a: 1, b: 2}`; the callback writes `a = 10` through the write-tracking
wrapper and returns `{b: 3}`.  The claim predicts the next memory to be
the mutated clone with the returned keys merged on top —
`{a: 10, b: 3}` (second conjunct computes that formula) — but the code
merges the returned object onto the *prior* memory (`{ ...this._memory,
...result }`), producing `{a: 1, b: 3}`: the proxied write to `a` is
discarded. -/
theorem set_functional_claim_counterexample :
    (cortexSet okOracle ⟨[("a", .num 1), ("b", .num 2)], [], []⟩
        (.fn [(["a"], .num 10)] (some [("b", .num 3)]))).map
        (fun r => r.state.memory)
      = some [("a", .num 1), ("b", .num 3)]
    ∧ (applyWrites [("a", .num 1), ("b", .num 2)] [(["a"], .num 10)] []).map
        (fun p => shallowMerge p.1 [("b", .num 3)])
      = some [("a", .num 10), ("b", .num 3)]
    ∧ some [("a", JVal.num 1), ("b", JVal.num 3)]
        ≠ some [("a", JVal.num 10), ("b", JVal.num 3)] := by
  refine ⟨by decide, by decide, by decide⟩

/-- **C2 (amended).** For a functional mutation whose write trace applies
cleanly (yielding mutated clone `clone` and recorded paths `changed`):
if the callback returns a plain object `robj`, the next memory is the
shallow merge of the **prior** memory (not the mutated clone) with
`robj`, and the changed-path set is the recorded write paths plus
`robj`'s top-level keys; if it returns no plain object, the mutated
clone alone becomes the next memory with exactly the recorded paths. -/
theorem set_functional_spec
    (o : StorageOracle) (st : CortexState)
    (writes : List (Path × JVal)) (ret : Option JObj)
    (clone : JObj) (changed : List Path)
    (happ : applyWrites st.memory writes [] = some (clone, changed)) :
    ∃ res, cortexSet o st (.fn writes ret) = some res
      ∧ (∀ robj, ret = some robj →
          res.state.memory = shallowMerge st.memory robj
          ∧ (∀ k, jget res.state.memory k
              = (jget robj k).or (jget st.memory k))
          ∧ (∀ p, p ∈ res.changedPaths
              ↔ p ∈ changed ∨ ∃ k ∈ jkeys robj, p = [k]))
      ∧ (ret = none →
          res.state.memory = clone ∧ res.changedPaths = changed) := by
  simp only [cortexSet, happ]
  cases ret with
  | some robj =>
      refine ⟨_, rfl, ?_, by intro h; cases h⟩
      rintro robj' he
      rw [Option.some.injEq] at he
      subst he
      refine ⟨rfl, fun k => jget_shallowMerge st.memory robj k, fun p => ?_⟩
      exact mem_changedKeys (jkeys robj) changed p
  | none =>
      refine ⟨_, rfl, ?_, fun _ => ⟨rfl, rfl⟩⟩
      rintro robj he
      cases he

/-- Witness for the amended C2 on the counterexample's concrete input. -/
theorem set_functional_spec_witness :
    ∃ res, cortexSet okOracle ⟨[("a", .num 1), ("b", .num 2)], [], []⟩
        (.fn [(["a"], .num 10)] (some [("b", .num 3)])) = some res
      ∧ (∀ robj, some [("b", JVal.num 3)] = some robj →
          res.state.memory = shallowMerge [("a", .num 1), ("b", .num 2)] robj
          ∧ (∀ k, jget res.state.memory k
              = (jget robj k).or (jget [("a", .num 1), ("b", .num 2)] k))
          ∧ (∀ p, p ∈ res.changedPaths
              ↔ p ∈ [(["a"] : Path)] ∨ ∃ k ∈ jkeys robj, p = [k]))
      ∧ (some [("b", JVal.num 3)] = none →
          res.state.memory = [("a", .num 10), ("b", .num 2)]
          ∧ res.changedPaths = [["a"]]) :=
  set_functional_spec okOracle ⟨[("a", .num 1), ("b", .num 2)], [], []⟩
    [(["a"], .num 10)] (some [("b", .num 3)])
    [("a", .num 10), ("b", .num 2)] [["a"]] (by decide)

/-- **C3 (counterexample to the claim as stated).** In the
`packages/humn` Cortex the accessed-path set of a subscriber is *not*
reset on a new execution: after a first render of subscriber `1` reading
only `"p"` and a second render reading only `"q"`, the listener map
still holds `{"p", "q"}` (first conjunct), so a subsequent mutation
whose changed paths relate only to `"p"` — a path the subscriber did not
read in its latest render — still re-invokes subscriber `1` (second
conjunct), contradicting the claimed reset. -/
theorem accessedPaths_reset_counterexample :
    (memoryGetPkg (memoryGetPkg ⟨[("p", .num 1), ("q", .num 2)], [], []⟩
        (some 1) [["p"]]) (some 1) [["q"]]).listeners
      = [(1, [["p"], ["q"]])]
    ∧ (cortexSet okOracle
        (memoryGetPkg (memoryGetPkg ⟨[("p", .num 1), ("q", .num 2)], [], []⟩
          (some 1) [["p"]]) (some 1) [["q"]])
        (.merge [("p", .num 9)])).map (fun r => r.notified)
      = some [1] := by
  refine ⟨by decide, by decide⟩

/-- **C3 (amended).** The reset the claim describes holds of the
`src/cortex.js` Cortex, whose memory getter clears the accessed-path set
when a tracked read begins (`accessedPaths.clear()`): after an execution
of subscriber `obs` that reads exactly `reads`, its recorded set is
rebuilt from those reads alone, and a subsequent object merge re-invokes
`obs` iff one of *those* paths (not paths from earlier executions)
relates to a changed key.  In the `packages/humn` Cortex the set instead
accumulates across executions (see the counterexample). -/
theorem accessedPaths_reset_src
    (st : CortexState) (obs : Nat) (reads : List Path)
    (hl : (st.listeners.map Prod.fst).Nodup) :
    ((memoryGetSrc st (some obs) reads).listeners.lookup obs
        = some (recordReadsInto [] reads))
    ∧ (∀ (o : StorageOracle) (u : JObj),
        ∃ res, cortexSet o (memoryGetSrc st (some obs) reads) (.merge u)
            = some res
          ∧ (obs ∈ res.notified ↔ ∃ a ∈ recordReadsInto [] reads,
              ∃ k ∈ jkeys u, (a = [k] ∨ [k] <+: a ∨ a <+: [k]))) := by
  constructor
  · exact listenersSet_lookup_self st.listeners obs _
  · intro o u
    refine ⟨_, rfl, ?_⟩
    show obs ∈ notifyRelevantListeners
        (listenersSet st.listeners obs (recordReadsInto [] reads))
        ((jkeys u).foldl (fun acc k => addPath acc [k]) []) ↔ _
    rw [mem_notifyRelevantListeners _ _ obs (recordReadsInto [] reads)
      (listenersSet_nodup st.listeners obs _ hl)
      (listenersSet_mem_self st.listeners obs _)]
    constructor
    · rintro ⟨a, ha, c, hc, hrel⟩
      obtain ⟨k, hk, rfl⟩ := ((mem_changedKeys (jkeys u) [] c).mp hc).resolve_left
        (by simp)
      refine ⟨a, ha, k, hk, ?_⟩
      simpa using (pathRelates_iff a [k]).mp hrel
    · rintro ⟨a, ha, k, hk, hrel⟩
      refine ⟨a, ha, [k], (mem_changedKeys (jkeys u) [] [k]).mpr
        (Or.inr ⟨k, hk, rfl⟩), ?_⟩
      exact (pathRelates_iff a [k]).mpr (by tauto)

/-- Witness for the amended C3: with the `src/cortex.js` getter, the
counterexample scenario does *not* notify subscriber `1`. -/
theorem accessedPaths_reset_src_witness :
    ((memoryGetSrc (memoryGetPkg ⟨[("p", .num 1), ("q", .num 2)], [], []⟩
          (some 1) [["p"]]) (some 1) [["q"]]).listeners.lookup 1
        = some (recordReadsInto [] [["q"]]))
    ∧ ∃ res, cortexSet okOracle
          (memoryGetSrc (memoryGetPkg ⟨[("p", .num 1), ("q", .num 2)], [], []⟩
            (some 1) [["p"]]) (some 1) [["q"]])
          (.merge [("p", .num 9)]) = some res
        ∧ (1 ∈ res.notified ↔ ∃ a ∈ recordReadsInto [] [["q"]],
            ∃ k ∈ jkeys [("p", JVal.num 9)], (a = [k] ∨ [k] <+: a ∨ a <+: [k])) := by
  have h := accessedPaths_reset_src
    (memoryGetPkg ⟨[("p", .num 1), ("q", .num 2)], [], []⟩ (some 1) [["p"]])
    1 [["q"]] (by decide)
  exact ⟨h.1, h.2 okOracle [("p", .num 9)]⟩

/-- **C10.** Calling `onMount` or `onCleanup` while no component instance
is current (`currentInstance === null`) is a total no-op: the call is a
total function (never throws) and leaves the instance slot — the only
place these functions ever write — unchanged, registering no callback. -/
theorem lifecycle_noop_without_instance :
    ∀ fn : Nat, onMount fn none = none ∧ onCleanup fn none = none := by
  intro fn
  exact ⟨rfl, rfl⟩

/-! ## C5: keyed reordering preserves live-node identity -/

/-- The reconciliation key a child carries of its own (independent of its
index): `some (pvalKeyStr v)` for an element with a non-null `key` prop,
`none` otherwise. -/
def vkey : VNode → Option String
  | .elem _ props _ _ =>
      (match props.lookup "key" with
       | some v => if v = .null then none else some (pvalKeyStr v)
       | none => none)
  | _ => none

/-- A children list made only of primitive VNodes. -/
def allPrim (ks : List VNode) : Bool :=
  ks.all (fun k => match k with | .prim _ => true | _ => false)

/-- The tag of an element VNode. -/
def elemTagOf : VNode → String
  | .elem t _ _ _ => t
  | _ => ""

theorem keyOfChild_of_vkey (c : VNode) (k : String) (i : Nat)
    (h : vkey c = some k) : keyOfChild c i = k := by
  cases c with
  | prim p => simp [vkey] at h
  | comp fid render props children el child hooks => simp [vkey] at h
  | elem tag props children el =>
      cases hl : props.lookup "key" with
      | none => simp [vkey, hl] at h
      | some v =>
          simp only [vkey, hl] at h
          by_cases hv : v = PVal.null
          · rw [if_pos hv] at h; simp at h
          · rw [if_neg hv] at h
            simp only [keyOfChild, hl, if_neg hv]
            exact Option.some.inj h

theorem vnodeHasKey_of_vkey (c : VNode) (k : String)
    (h : vkey c = some k) : vnodeHasKey c = true := by
  cases c with
  | prim p => simp [vkey] at h
  | comp fid render props children el child hooks => simp [vkey] at h
  | elem tag props children el =>
      cases hl : props.lookup "key" with
      | none => simp [vkey, hl] at h
      | some v =>
          simp only [vkey, hl] at h
          by_cases hv : v = PVal.null
          · rw [if_pos hv] at h; simp at h
          · simp [vnodeHasKey, hl, hv]

theorem allPrim_get (ks : List VNode) (i : Nat) (c : VNode)
    (h : allPrim ks = true) (hg : ks.get? i = some c) : ∃ p, c = .prim p := by
  have hm : c ∈ ks := List.get?_mem hg
  have := List.all_eq_true.mp h c hm
  cases c with
  | prim p => exact ⟨p, rfl⟩
  | elem _ _ _ _ => simp at this
  | comp _ _ _ _ _ _ _ => simp at this

theorem lookup_isSome_of_mem_keys {ω : Type} (l : List (String × ω))
    (k : String) (h : k ∈ l.map Prod.fst) : ∃ v, l.lookup k = some v := by
  induction l with
  | nil => simp at h
  | cons e rest ih =>
      rw [slookup_cons]
      by_cases hk : e.1 = k
      · exact ⟨e.2, if_pos hk⟩
      · rw [if_neg hk]
        refine ih ?_
        rcases List.mem_map.mp h with ⟨e', he', hfst⟩
        rcases List.mem_cons.mp he' with rfl | hmem
        · exact absurd hfst hk
        · exact List.mem_map.mpr ⟨e', hmem, hfst⟩

theorem mem_of_lookup_eq_some {ω : Type} (l : List (String × ω))
    (k : String) (v : ω) (h : l.lookup k = some v) : (k, v) ∈ l := by
  induction l with
  | nil => simp [List.lookup] at h
  | cons e rest ih =>
      rw [slookup_cons] at h
      by_cases hk : e.1 = k
      · rw [if_pos hk] at h
        obtain ⟨a, b⟩ := e
        simp only at hk
        have hv := Option.some.inj h
        subst hk
        subst hv
        exact List.mem_cons_self _ _
      · rw [if_neg hk] at h
        exact List.mem_cons_of_mem _ (ih h)

theorem lookup_aremove_ne {ω : Type} (l : List (String × ω))
    (k k' : String) (h : k' ≠ k) :
    (aremove l k).lookup k' = l.lookup k' := by
  induction l with
  | nil => rfl
  | cons e rest ih =>
      by_cases hk : e.1 = k
      · have ha : (aremove (e :: rest) k) = aremove rest k := by
          simp [aremove, List.filter_cons, hk]
        rw [ha, ih, slookup_cons, if_neg (by rw [hk]; exact Ne.symm h)]
      · have ha : (aremove (e :: rest) k) = e :: aremove rest k := by
          simp [aremove, List.filter_cons, hk]
        rw [ha, slookup_cons, slookup_cons, ih]

theorem aremove_map_fst {ω : Type} (l : List (String × ω)) (k : String) :
    (aremove l k).map Prod.fst
      = (l.map Prod.fst).filter (fun x => x ≠ k) := by
  induction l with
  | nil => rfl
  | cons e rest ih =>
      by_cases hk : e.1 = k
      · simp [aremove, List.filter_cons, hk] at ih ⊢
        exact ih
      · simp [aremove, List.filter_cons, hk] at ih ⊢
        exact ih

theorem idsOf_append (a b : List DomNode) :
    idsOf (a ++ b) = idsOf a ++ idsOf b :=
  List.map_append _ a b

theorem idsOf_removeById (l : List DomNode) (e : Nat) :
    idsOf (removeById l e) = (idsOf l).erase e := by
  induction l with
  | nil => rfl
  | cons c rest ih =>
      by_cases hc : c.idOf = e
      · simp [removeById, idsOf, List.eraseP_cons, List.erase_cons, hc]
      · have hb : (c.idOf == e) = false := by simpa using hc
        simp only [removeById, idsOf, List.eraseP_cons, hb, cond_false,
          List.map_cons, List.erase_cons]
        rw [if_neg (by simpa using hc)]
        exact congrArg (List.cons c.idOf) ih

theorem updateById_append (a b : List DomNode) (e : Nat)
    (f : DomNode → DomNode) :
    updateById (a ++ b) e f = updateById a e f ++ updateById b e f :=
  List.map_append _ a b

theorem updateById_of_not_mem (l : List DomNode) (e : Nat)
    (f : DomNode → DomNode) (h : e ∉ idsOf l) : updateById l e f = l := by
  induction l with
  | nil => rfl
  | cons c rest ih =>
      simp only [idsOf, List.map_cons, List.mem_cons, not_or] at h
      have h1 : ¬ (c.idOf = e) := fun hc => h.1 hc.symm
      simp only [updateById, List.map_cons, if_neg h1]
      exact congrArg (List.cons c) (ih h.2)

theorem idsOf_updateById_const (l : List DomNode) (e : Nat) (dn : DomNode)
    (h : dn.idOf = e) :
    idsOf (updateById l e (fun _ => dn)) = idsOf l := by
  induction l with
  | nil => rfl
  | cons c rest ih =>
      by_cases hc : c.idOf = e
      · simp only [updateById, idsOf, List.map_cons, if_pos hc] at ih ⊢
        rw [h, hc]
        exact congrArg (List.cons e) ih
      · simp only [updateById, idsOf, List.map_cons, if_neg hc] at ih ⊢
        exact congrArg (List.cons c.idOf) ih

theorem findById_of_mem (l : List DomNode) (e : Nat) (h : e ∈ idsOf l) :
    ∃ n, findById l e = some n ∧ n.idOf = e := by
  obtain ⟨c, hc, hid⟩ := List.mem_map.mp h
  have hsome : (l.find? (fun c => c.idOf = e)).isSome := by
    rw [List.find?_isSome]
    exact ⟨c, hc, by simp [hid]⟩
  obtain ⟨n, hn⟩ := Option.isSome_iff_exists.mp hsome
  refine ⟨n, hn, ?_⟩
  have hp := List.find?_some hn
  simpa using hp

theorem removeById_append_of_not_mem (a b : List DomNode) (e : Nat)
    (h : e ∉ idsOf a) : removeById (a ++ b) e = a ++ removeById b e := by
  unfold removeById
  exact List.eraseP_append_right b
    (fun c hc hce => h (List.mem_map.mpr ⟨c, hc, by simpa using hce⟩))

theorem removeById_cons_ne (c : DomNode) (rest : List DomNode) (e : Nat)
    (h : c.idOf ≠ e) : removeById (c :: rest) e = c :: removeById rest e := by
  unfold removeById
  have hb : (c.idOf == e) = false := by simpa using h
  simp only [List.eraseP_cons, hb, cond_false]

theorem findIdx_id_append (done : List DomNode) (r0 : DomNode)
    (X : List DomNode) (r : Nat) (hr : r0.idOf = r) (hnd : r ∉ idsOf done) :
    ∀ s : Nat, List.findIdx? (fun c => c.idOf = r) (done ++ r0 :: X) s
      = some (s + done.length) := by
  induction done with
  | nil =>
      intro s
      simp only [List.nil_append, List.findIdx?_cons]
      rw [if_pos (by simp [hr])]
      simp
  | cons d rest ih =>
      intro s
      simp only [idsOf, List.map_cons, List.mem_cons, not_or] at hnd
      simp only [List.cons_append, List.findIdx?_cons]
      rw [if_neg (by simp; exact fun hh => hnd.1 hh.symm)]
      rw [ih hnd.2 (s + 1)]
      congr 1
      simp only [List.length_cons]
      omega

theorem insertNodeBefore_middle (done : List DomNode) (r0 : DomNode)
    (X : List DomNode) (n : DomNode) (r : Nat) (hr : r0.idOf = r)
    (hnd : r ∉ idsOf done) :
    insertNodeBefore (done ++ r0 :: X) n (some r) = done ++ n :: r0 :: X := by
  simp only [insertNodeBefore, findIdx_id_append done r0 X r hr hnd,
    Nat.zero_add]
  rw [List.take_left, List.drop_left]

theorem get_append_len {α : Type} (a b : List α) :
    (a ++ b).get? a.length = b.get? 0 := by
  rw [List.get?_append_right (le_refl _), Nat.sub_self]

theorem patchPropsStep_idOf (el : DomNode) (np op : Props) (k : String) :
    (patchPropsStep el np op k).1.idOf = el.idOf := by
  simp only [patchPropsStep]
  split
  · exact domRemoveAttr_idOf el k
  · split
    · split
      · exact domSetProp_idOf el k _
      · rfl
    · split
      · rfl
      · split
        · rw [domSetProp_idOf, (patchPropsEvents_props el k _ _ k).2.2.2]
        · rw [domSetAttr_idOf, (patchPropsEvents_props el k _ _ k).2.2.2]

theorem patchProps_fst_idOf (el : DomNode) (np op : Props) :
    (patchProps el np op).1.idOf = el.idOf := by
  suffices h : ∀ (ks : List String) (acc : DomNode × List WOp),
      (ks.foldl (fun acc k =>
        let r := patchPropsStep acc.1 np op k
        (r.1, acc.2 ++ r.2)) acc).1.idOf = acc.1.idOf by
    exact h _ _
  intro ks
  induction ks with
  | nil => intro acc; rfl
  | cons k rest ih =>
      intro acc
      rw [List.foldl_cons, ih]
      exact patchPropsStep_idOf acc.1 np op k

theorem textUpdateAt_state (st : RtState) (cs : List DomNode) (i : Nat)
    (s : String) : (textUpdateAt st cs i s).2.cleanupLog = st.cleanupLog := by
  unfold textUpdateAt
  split <;> rfl

theorem patch_unmount_prim (f : Nat) (st : RtState) (cs : List DomNode)
    (q : Prim) (i : Nat) :
    patch (f + 1) st cs none (some (.prim q)) i
      = some ((match (cs.get? i).map DomNode.idOf with
          | some e => removeById cs e
          | none => cs), none, st) := by
  simp only [patch.eq_def, runUnmountV, VNode.elOf, Option.none_orElse]

theorem patchNonComp_prim_total (g : Nat) (hg : 2 ≤ g) (st : RtState)
    (cs : List DomNode) (p : Prim) (ov : Option VNode) (i : Nat)
    (hov : ov = none ∨ ∃ q, ov = some (.prim q)) :
    ∃ cs2 v2 st2, patchNonComp g st cs (.prim p) ov i = some (cs2, v2, st2)
      ∧ st2.cleanupLog = st.cleanupLog := by
  obtain ⟨e, rfl⟩ : ∃ e, g = e + 1 + 1 := ⟨g - 2, by omega⟩
  rcases hov with rfl | ⟨q, rfl⟩
  · refine ⟨cs ++ [.text st.nextId (primString p)], some (.prim p),
      { st with nextId := st.nextId + 1 }, ?_, rfl⟩
    simp only [patchNonComp.eq_def, createElement.eq_def]
  · by_cases htq : primTypeof p = primTypeof q
    · by_cases hne : p = q
      · subst hne
        refine ⟨cs, some (.prim p), st, ?_, rfl⟩
        simp only [patchNonComp.eq_def, VNode.typeofStr, VNode.tagRef]
        rw [if_neg (by simp)]
        simp [primValOf]
      · refine ⟨(textUpdateAt st cs i (primString p)).1, some (.prim p),
          (textUpdateAt st cs i (primString p)).2, ?_,
          textUpdateAt_state st cs i (primString p)⟩
        simp only [patchNonComp.eq_def, VNode.typeofStr, VNode.tagRef]
        rw [if_neg (by simp [htq])]
        simp only [primValOf]
        rw [if_pos (by simpa using hne)]
    · rcases hge : cs.get? i with _ | c
      · refine ⟨cs, some (.prim p), st, ?_, rfl⟩
        simp only [patchNonComp.eq_def, VNode.typeofStr, VNode.tagRef,
          VNode.elOf, hge, Option.none_orElse]
        rw [if_pos (Or.inl (by simpa using htq))]
        rfl
      · refine ⟨replaceById cs c.idOf (.text st.nextId (primString p)),
          some (.prim p), { st with nextId := st.nextId + 1 }, ?_, rfl⟩
        simp only [patchNonComp.eq_def, VNode.typeofStr, VNode.tagRef,
          VNode.elOf, hge, Option.none_orElse,
          createElement.eq_def]
        rw [if_pos (Or.inl (by simpa using htq))]
        rfl

theorem patch_prim_total (fuel : Nat) (hf : 3 ≤ fuel) (st : RtState)
    (cs : List DomNode) (nv ov : Option VNode) (i : Nat)
    (hnv : nv = none ∨ ∃ p, nv = some (.prim p))
    (hov : ov = none ∨ ∃ q, ov = some (.prim q))
    (hnb : ¬(nv = none ∧ ov = none)) :
    ∃ cs2 v2 st2, patch fuel st cs nv ov i = some (cs2, v2, st2)
      ∧ st2.cleanupLog = st.cleanupLog := by
  obtain ⟨f, rfl⟩ : ∃ f, fuel = f + 1 := ⟨fuel - 1, by omega⟩
  rcases hnv with rfl | ⟨p, rfl⟩
  · rcases hov with rfl | ⟨q, rfl⟩
    · exact absurd ⟨rfl, rfl⟩ hnb
    · exact ⟨_, none, st, patch_unmount_prim f st cs q i, rfl⟩
  · have hstep : patch (f + 1) st cs (some (.prim p)) ov i
        = patchNonComp f st cs (.prim p) ov i := by
      simp only [patch.eq_def]
    rw [hstep]
    exact patchNonComp_prim_total f (by omega) st cs p ov i hov

theorem hasKeys_allPrim (ks : List VNode) (h : allPrim ks = true) :
    hasKeys ks = false := by
  rw [hasKeys, List.any_eq_false]
  intro c hc
  have hall := List.all_eq_true.mp h c hc
  cases c with
  | prim p => simp [vnodeHasKey]
  | elem _ _ _ _ => simp at hall
  | comp _ _ _ _ _ _ _ => simp at hall

theorem unkeyedLoop_prim_total :
    ∀ (remaining fuel : Nat) (st : RtState) (cs : List DomNode)
      (nks oks : List VNode) (i : Nat) (acc : List VNode),
      3 ≤ fuel → allPrim nks = true → allPrim oks = true →
      i + remaining = max nks.length oks.length →
      ∃ cs2 acc2 st2,
        unkeyedLoop fuel st cs nks oks i remaining acc = some (cs2, acc2, st2)
        ∧ st2.cleanupLog = st.cleanupLog := by
  intro remaining
  induction remaining with
  | zero =>
      intro fuel st cs nks oks i acc hf hnk hok hrem
      refine ⟨cs, acc, st, ?_, rfl⟩
      rw [unkeyedLoop.eq_def]
  | succ r ih =>
      intro fuel st cs nks oks i acc hf hnk hok hrem
      have hi : i < max nks.length oks.length := by omega
      have hnv : nks.get? i = none ∨ ∃ p, nks.get? i = some (.prim p) := by
        cases hg : nks.get? i with
        | none => exact Or.inl rfl
        | some c =>
            obtain ⟨p, rfl⟩ := allPrim_get nks i c hnk hg
            exact Or.inr ⟨p, rfl⟩
      have hov : oks.get? i = none ∨ ∃ q, oks.get? i = some (.prim q) := by
        cases hg : oks.get? i with
        | none => exact Or.inl rfl
        | some c =>
            obtain ⟨q, rfl⟩ := allPrim_get oks i c hok hg
            exact Or.inr ⟨q, rfl⟩
      have hnb : ¬(nks.get? i = none ∧ oks.get? i = none) := by
        rintro ⟨h1, h2⟩
        have l1 := List.get?_eq_none.mp h1
        have l2 := List.get?_eq_none.mp h2
        omega
      obtain ⟨cs2, v2, st2, hp, hlog⟩ :=
        patch_prim_total fuel hf st cs _ _ i hnv hov hnb
      obtain ⟨cs3, acc3, st3, hl, hlog3⟩ :=
        ih fuel st2 cs2 nks oks (i + 1) (acc ++ v2.toList) hf hnk hok
          (by omega)
      refine ⟨cs3, acc3, st3, ?_, by rw [hlog3, hlog]⟩
      rw [unkeyedLoop.eq_def]
      rw [hp]
      exact hl

theorem reconcileChildren_prim_total (fuel : Nat) (hf : 3 ≤ fuel)
    (st : RtState) (cs : List DomNode) (nks oks : List VNode)
    (hnk : allPrim nks = true) (hok : allPrim oks = true) :
    ∃ cs2 acc2 st2,
      reconcileChildren fuel st cs nks oks = some (cs2, acc2, st2)
      ∧ st2.cleanupLog = st.cleanupLog := by
  obtain ⟨cs2, acc2, st2, hl, hlog⟩ :=
    unkeyedLoop_prim_total (max nks.length oks.length) fuel st cs nks oks 0 []
      hf hnk hok (by omega)
  refine ⟨cs2, acc2, st2, ?_, hlog⟩
  simp only [reconcileChildren.eq_def, hasKeys_allPrim nks hnk,
    hasKeys_allPrim oks hok, Bool.or_false, Bool.not_false, if_true]
  exact hl

theorem domWithChildren_idOf (n : DomNode) (cs2 : List DomNode) :
    (domWithChildren n cs2).idOf = n.idOf := by cases n <;> rfl

/-- `patch` on a matched pair of same-tag keyed elements (with primitive
children): the old live node `e` is patched in place via `updateById` —
the DOM keeps the same node object at the same position — and the
updated VNode carries `el = e` forward; no cleanup runs. -/
theorem patch_matched_elem (fuel : Nat) (hf : 5 ≤ fuel) (st : RtState)
    (cs : List DomNode) (tag : String) (nprops oprops : Props)
    (nkids okids : List VNode) (x : Option Nat) (e i : Nat)
    (hnk : allPrim nkids = true) (hok : allPrim okids = true)
    (he : e ∈ idsOf cs) :
    ∃ dn2 nkids2 st2,
      patch fuel st cs (some (.elem tag nprops nkids x))
          (some (.elem tag oprops okids (some e))) i
        = some (updateById cs e (fun _ => dn2),
            some (.elem tag nprops nkids2 (some e)), st2)
      ∧ dn2.idOf = e ∧ st2.cleanupLog = st.cleanupLog := by
  obtain ⟨f, rfl⟩ : ∃ f, fuel = f + 1 + 1 := ⟨fuel - 2, by omega⟩
  obtain ⟨dn, hdn, hdnid⟩ := findById_of_mem cs e he
  obtain ⟨inner, nk2, st2, hrec, hlog⟩ :=
    reconcileChildren_prim_total f (by omega) st
      (patchProps dn nprops oprops).1.childrenOf nkids okids hnk hok
  refine ⟨domWithChildren (patchProps dn nprops oprops).1 inner, nk2, st2,
    ?_, ?_, hlog⟩
  · have hstep : patch (f + 1 + 1) st cs
        (some (.elem tag nprops nkids x))
        (some (.elem tag oprops okids (some e))) i
        = patchNonComp (f + 1) st cs (.elem tag nprops nkids x)
            (some (.elem tag oprops okids (some e))) i := by
      simp only [patch.eq_def]
    rw [hstep]
    simp only [patchNonComp.eq_def]
    rw [if_neg (by simp [VNode.typeofStr, VNode.tagRef])]
    simp only [VNode.elOf, Option.some_orElse, elemPropsOf, elemChildrenOf,
      hdn, hrec]
  · rw [domWithChildren_idOf, patchProps_fst_idOf, hdnid]

/-- The key string of a child, with `""` for unkeyed children (only
applied to keyed ones). -/
def vkeyD (c : VNode) : String := (vkey c).getD ""

/-- The keyed loop of `reconcileChildren` on a fully-matched workload:
every remaining new child is a keyed element with primitive children,
the pending `keyed` map holds exactly the same keys (in any order), each
entry's live node sits in the unprocessed suffix `rest` of the child
list, and all node identities are distinct.  Then the loop succeeds,
consumes the whole map, settles one node per new child after the `done`
prefix — and the node settled at a new child's position is the *same*
live node (same identity) that the child's key had before the loop, the
map entry's `el`.  No cleanup is ever invoked. -/
theorem keyedLoop_reorder (fuel : Nat) (hf : 5 ≤ fuel) :
    ∀ (newRem : List VNode) (keyed : List (String × VNode × Nat))
      (done rest : List DomNode) (st : RtState) (acc : List VNode),
      (newRem.map vkeyD).Perm (keyed.map Prod.fst) →
      (keyed.map Prod.fst).Nodup →
      (∀ nc ∈ newRem, ∃ tag nprops nkids x v,
        nc = VNode.elem tag nprops nkids x
        ∧ nprops.lookup "key" = some v ∧ v ≠ PVal.null
        ∧ allPrim nkids = true) →
      (∀ en ∈ keyed, ∃ tag oprops okids elid,
        en.2.1 = VNode.elem tag oprops okids (some elid)
        ∧ allPrim okids = true ∧ elid ∈ idsOf rest) →
      (∀ nc ∈ newRem, ∀ en ∈ keyed, vkey nc = some en.1 →
        elemTagOf nc = elemTagOf en.2.1) →
      ((keyed.map (fun en => VNode.elOf en.2.1)).Nodup) →
      ((idsOf (done ++ rest)).Nodup) →
      (rest.length = keyed.length) →
      ∃ settled acc2 st2,
        keyedLoop fuel st (done ++ rest) keyed newRem done.length acc
          = some (done ++ settled, [], acc ++ acc2, st2)
        ∧ List.Forall₂
            (fun nc d => ∃ k ov oidx, vkey nc = some k
              ∧ (k, ov, oidx) ∈ keyed ∧ ov.elOf = some d.idOf)
            newRem settled
        ∧ st2.cleanupLog = st.cleanupLog := by
  intro newRem
  induction newRem with
  | nil =>
      intro keyed done rest st acc hperm hknd hnew hold htag helinj hnd hlen
      have hkeyed : keyed = [] := by
        have hl := hperm.length_eq
        simp only [List.map_nil, List.length_nil, List.length_map] at hl
        exact List.eq_nil_of_length_eq_zero hl.symm
      subst hkeyed
      have hrest : rest = [] :=
        List.eq_nil_of_length_eq_zero (by simpa using hlen)
      subst hrest
      refine ⟨[], [], st, ?_, List.Forall₂.nil, rfl⟩
      rw [keyedLoop.eq_def]
      simp
  | cons nc newTail ih =>
      intro keyed done rest st acc hperm hknd hnew hold htag helinj hnd hlen
      obtain ⟨tagN, nprops, nkids, x, v, rfl, hkprop, hvnull, hnkp⟩ :=
        hnew _ (List.mem_cons_self _ _)
      have hvk : vkey (VNode.elem tagN nprops nkids x)
          = some (pvalKeyStr v) := by
        simp [vkey, hkprop, hvnull]
      have hkoc : keyOfChild (VNode.elem tagN nprops nkids x) done.length
          = pvalKeyStr v := keyOfChild_of_vkey _ _ _ hvk
      have hhd : vkeyD (VNode.elem tagN nprops nkids x) = pvalKeyStr v := by
        simp [vkeyD, hvk]
      have hkmem : pvalKeyStr v ∈ keyed.map Prod.fst := by
        refine hperm.subset ?_
        rw [List.map_cons, hhd]
        exact List.mem_cons_self _ _
      obtain ⟨⟨ov, oidx⟩, hlk⟩ := lookup_isSome_of_mem_keys keyed _ hkmem
      have hentry : (pvalKeyStr v, ov, oidx) ∈ keyed :=
        mem_of_lookup_eq_some _ _ _ hlk
      obtain ⟨tagO, oprops, okids, elid, hovE, hokp, helid⟩ := hold _ hentry
      have hovV : ov = VNode.elem tagO oprops okids (some elid) := hovE
      have htagEq : tagN = tagO := by
        have ht := htag _ (List.mem_cons_self _ _) _ hentry hvk
        rw [hovV] at ht
        simpa [elemTagOf] using ht
      subst htagEq
      subst hovV
      -- nodup structure of the current child list
      have hndApp : (idsOf done ++ idsOf rest).Nodup := by
        rw [← idsOf_append]; exact hnd
      obtain ⟨hndDone, hndRest, hdisj⟩ := List.nodup_append.mp hndApp
      have helnotdone : elid ∉ idsOf done := fun hmem => hdisj hmem helid
      -- patch the matched pair
      have helidcs : elid ∈ idsOf (done ++ rest) := by
        rw [idsOf_append]
        exact List.mem_append_right _ helid
      obtain ⟨dn2, nkids2, st2, hpatch, hdn2, hlog2⟩ :=
        patch_matched_elem fuel hf st (done ++ rest) tagN nprops oprops
          nkids okids x elid done.length hnkp hokp helidcs
      -- the unprocessed suffix is nonempty
      have hrestne : rest ≠ [] := by
        intro h
        rw [h] at helid
        simp [idsOf] at helid
      obtain ⟨r0, rest2, rfl⟩ := List.exists_cons_of_ne_nil hrestne
      obtain ⟨hr0nin, hndR2⟩ : r0.idOf ∉ idsOf rest2 ∧ (idsOf rest2).Nodup := by
        have := hndRest
        simp only [idsOf, List.map_cons, List.nodup_cons] at this
        exact this
      have hr0notdone : r0.idOf ∉ idsOf done := by
        intro hmem
        exact hdisj hmem (by simp [idsOf])
      -- the updated child list after the in-place patch
      have hcs1 : updateById (done ++ r0 :: rest2) elid (fun _ => dn2)
          = done ++ (if r0.idOf = elid then dn2 else r0)
              :: updateById rest2 elid (fun _ => dn2) := by
        rw [updateById_append, updateById_of_not_mem done elid _ helnotdone]
        rfl
      -- shared facts about the shrunk keyed map
      have hpermTail : (newTail.map vkeyD).Perm
          ((keyed.map Prod.fst).erase (pvalKeyStr v)) := by
        have hp2 := hperm.erase (pvalKeyStr v)
        rw [List.map_cons, hhd, List.erase_cons_head] at hp2
        exact hp2
      have haremEq : (aremove keyed (pvalKeyStr v)).map Prod.fst
          = (keyed.map Prod.fst).erase (pvalKeyStr v) := by
        rw [aremove_map_fst, List.Nodup.erase_eq_filter hknd]
        exact List.filter_congr (fun a _ => by
          by_cases h : a = pvalKeyStr v <;> simp [h])
      have hperm2 : (newTail.map vkeyD).Perm
          ((aremove keyed (pvalKeyStr v)).map Prod.fst) := by
        rw [haremEq]; exact hpermTail
      have hknd2 : ((aremove keyed (pvalKeyStr v)).map Prod.fst).Nodup := by
        rw [haremEq]; exact hknd.erase _
      have hsubArem : List.Sublist (aremove keyed (pvalKeyStr v)) keyed :=
        List.filter_sublist keyed
      have helinj2 : ((aremove keyed (pvalKeyStr v)).map
          (fun en => VNode.elOf en.2.1)).Nodup :=
        helinj.sublist (hsubArem.map _)
      have hnew2 : ∀ nc2 ∈ newTail, ∃ tag nprops2 nkids2x x2 v2,
          nc2 = VNode.elem tag nprops2 nkids2x x2
          ∧ nprops2.lookup "key" = some v2 ∧ v2 ≠ PVal.null
          ∧ allPrim nkids2x = true :=
        fun nc2 hm => hnew nc2 (List.mem_cons_of_mem _ hm)
      have htag2 : ∀ nc2 ∈ newTail, ∀ en ∈ aremove keyed (pvalKeyStr v),
          vkey nc2 = some en.1 → elemTagOf nc2 = elemTagOf en.2.1 :=
        fun nc2 hm en hen hv =>
          htag nc2 (List.mem_cons_of_mem _ hm) en
            (List.mem_of_mem_filter hen) hv
      have hlenArem : (aremove keyed (pvalKeyStr v)).length + 1
          = keyed.length := by
        have h1 : ((aremove keyed (pvalKeyStr v)).map Prod.fst).length
            = ((keyed.map Prod.fst).erase (pvalKeyStr v)).length := by
          rw [haremEq]
        rw [List.length_map, List.length_erase_of_mem hkmem,
          List.length_map] at h1
        have h2 : 0 < keyed.length := by
          rcases keyed with _ | ⟨e0, k0⟩
          · simp at hkmem
          · simp
        omega
      -- no other pending entry owns the live node `elid`
      have helOther : ∀ en ∈ aremove keyed (pvalKeyStr v),
          VNode.elOf en.2.1 ≠ some elid := by
        intro en hen heq
        have henK : en ∈ keyed := List.mem_of_mem_filter hen
        have hne : en.1 ≠ pvalKeyStr v := by
          have := (List.mem_filter.mp hen).2
          simpa [aremove] using this
        have heqEn : en = (pvalKeyStr v,
            VNode.elem tagN oprops okids (some elid), oidx) := by
          refine List.inj_on_of_nodup_map helinj henK hentry ?_
          rw [heq]
          simp [VNode.elOf]
        exact hne (by rw [heqEn])
      by_cases hr0A : r0.idOf = elid
      · -- Case A: the matched node already sits at the target position.
        have hnotr2A : elid ∉ idsOf rest2 := hr0A ▸ hr0nin
        have hcsA2 : updateById (done ++ r0 :: rest2) elid (fun _ => dn2)
            = done ++ dn2 :: rest2 := by
          rw [hcs1, if_pos hr0A, updateById_of_not_mem rest2 elid _ hnotr2A]
        have happA : done ++ dn2 :: rest2 = (done ++ [dn2]) ++ rest2 := by
          rw [List.append_assoc]
          rfl
        -- invariants for the tail
        have hold2 : ∀ en ∈ aremove keyed (pvalKeyStr v),
            ∃ tag oprops2 okids2 elid2,
            en.2.1 = VNode.elem tag oprops2 okids2 (some elid2)
            ∧ allPrim okids2 = true ∧ elid2 ∈ idsOf rest2 := by
          intro en hen
          obtain ⟨tag2, op2, ok2, el2, he2, hap2, hel2⟩ :=
            hold _ (List.mem_of_mem_filter hen)
          refine ⟨tag2, op2, ok2, el2, he2, hap2, ?_⟩
          have hne2 : el2 ≠ elid := by
            intro hx
            exact helOther en hen (by rw [he2, hx]; simp [VNode.elOf])
          rcases (by simpa [idsOf] using hel2 :
              el2 = r0.idOf ∨ el2 ∈ idsOf rest2) with h1 | h1
          · exact absurd (h1.trans hr0A) hne2
          · exact h1
        have hnd2A : (idsOf ((done ++ [dn2]) ++ rest2)).Nodup := by
          have hshape : idsOf ((done ++ [dn2]) ++ rest2)
              = idsOf (done ++ r0 :: rest2) := by
            simp [idsOf, hdn2, hr0A]
          rw [hshape]
          exact hnd
        have hlen2A : rest2.length = (aremove keyed (pvalKeyStr v)).length := by
          have := hlen
          simp only [List.length_cons] at this
          omega
        obtain ⟨settled2, acc2, st3, hloop, hfa, hlog3⟩ :=
          ih (aremove keyed (pvalKeyStr v)) (done ++ [dn2]) rest2 st2
            (acc ++ [VNode.elem tagN nprops nkids2 (some elid)])
            hperm2 hknd2 hnew2 hold2 htag2 helinj2 hnd2A hlen2A
        refine ⟨dn2 :: settled2,
          VNode.elem tagN nprops nkids2 (some elid) :: acc2, st3, ?_, ?_,
          by rw [hlog3, hlog2]⟩
        · rw [keyedLoop.eq_def]
          simp only [hkoc, hlk, hpatch, Option.getD_some, VNode.elOf,
            Option.some_orElse, hcsA2]
          rw [get_append_len, List.get?_cons_zero]
          simp only [Option.map_some', hdn2]
          rw [if_neg (show ¬ some elid ≠ some elid by simp)]
          rw [happA]
          have hlen1 : done.length + 1 = (done ++ [dn2]).length := by
            simp
          rw [hlen1, hloop]
          simp [List.append_assoc]
        · refine List.Forall₂.cons ⟨pvalKeyStr v,
            VNode.elem tagN oprops okids (some elid), oidx, hvk, hentry,
            by simp [VNode.elOf, hdn2]⟩ ?_
          refine hfa.imp ?_
          rintro a b ⟨k2, ov2, oidx2, h1, h2, h3⟩
          exact ⟨k2, ov2, oidx2, h1, List.mem_of_mem_filter h2, h3⟩
      · -- Case B: the node sits further right; it is moved in front.
        have helid2 : elid ∈ idsOf rest2 := by
          rcases (by simpa [idsOf] using helid :
              elid = r0.idOf ∨ elid ∈ idsOf rest2) with h1 | h1
          · exact absurd h1.symm hr0A
          · exact h1
        have hIdsR2 : idsOf (updateById rest2 elid (fun _ => dn2))
            = idsOf rest2 := idsOf_updateById_const rest2 elid dn2 hdn2
        have hcsB : updateById (done ++ r0 :: rest2) elid (fun _ => dn2)
            = done ++ r0 :: updateById rest2 elid (fun _ => dn2) := by
          rw [hcs1, if_neg hr0A]
        have helidCs2 : elid ∈ idsOf (done ++ r0 ::
            updateById rest2 elid (fun _ => dn2)) := by
          rw [idsOf_append]
          refine List.mem_append_right _ ?_
          simp only [idsOf, List.map_cons, List.mem_cons]
          right
          rw [show List.map DomNode.idOf
              (updateById rest2 elid (fun _ => dn2))
              = idsOf (updateById rest2 elid (fun _ => dn2)) from rfl, hIdsR2]
          exact helid2
        obtain ⟨nE, hfindE, hnEid⟩ := findById_of_mem _ elid helidCs2
        have hrmB : removeById (done ++ r0 ::
            updateById rest2 elid (fun _ => dn2)) elid
            = done ++ r0 :: removeById
                (updateById rest2 elid (fun _ => dn2)) elid := by
          rw [removeById_append_of_not_mem _ _ _ helnotdone,
            removeById_cons_ne _ _ _ hr0A]
        have hmv1 : moveById (done ++ r0 ::
            updateById rest2 elid (fun _ => dn2)) elid (some r0.idOf)
            = insertNodeBefore (removeById (done ++ r0 ::
                updateById rest2 elid (fun _ => dn2)) elid) nE
                (some r0.idOf) := by
          unfold moveById
          rw [hfindE]
        have hmoveB : moveById (done ++ r0 ::
            updateById rest2 elid (fun _ => dn2)) elid (some r0.idOf)
            = (done ++ [nE]) ++ r0 :: removeById
                (updateById rest2 elid (fun _ => dn2)) elid := by
          rw [hmv1, hrmB,
            insertNodeBefore_middle done r0 _ nE r0.idOf rfl hr0notdone,
            List.append_assoc]
          rfl
        -- identities of the new suffix
        have hidsRestB : idsOf (r0 :: removeById
            (updateById rest2 elid (fun _ => dn2)) elid)
            = r0.idOf :: (idsOf rest2).erase elid := by
          simp only [idsOf, List.map_cons]
          rw [show List.map DomNode.idOf (removeById
              (updateById rest2 elid (fun _ => dn2)) elid)
              = idsOf (removeById
                (updateById rest2 elid (fun _ => dn2)) elid) from rfl,
            idsOf_removeById, hIdsR2]
          rfl
        have hold2 : ∀ en ∈ aremove keyed (pvalKeyStr v),
            ∃ tag oprops2 okids2 elid2,
            en.2.1 = VNode.elem tag oprops2 okids2 (some elid2)
            ∧ allPrim okids2 = true
            ∧ elid2 ∈ idsOf (r0 :: removeById
                (updateById rest2 elid (fun _ => dn2)) elid) := by
          intro en hen
          obtain ⟨tag2, op2, ok2, el2, he2, hap2, hel2⟩ :=
            hold _ (List.mem_of_mem_filter hen)
          refine ⟨tag2, op2, ok2, el2, he2, hap2, ?_⟩
          have hne2 : el2 ≠ elid := by
            intro hx
            exact helOther en hen (by rw [he2, hx]; simp [VNode.elOf])
          rw [hidsRestB]
          rcases (by simpa [idsOf] using hel2 :
              el2 = r0.idOf ∨ el2 ∈ idsOf rest2) with h1 | h1
          · exact List.mem_cons.mpr (Or.inl h1)
          · exact List.mem_cons.mpr
              (Or.inr ((List.mem_erase_of_ne hne2).mpr h1))
        have hndB : (idsOf ((done ++ [nE]) ++ r0 :: removeById
            (updateById rest2 elid (fun _ => dn2)) elid)).Nodup := by
          have hshape : idsOf ((done ++ [nE]) ++ r0 :: removeById
              (updateById rest2 elid (fun _ => dn2)) elid)
              = idsOf done ++ elid :: r0.idOf
                  :: (idsOf rest2).erase elid := by
            rw [idsOf_append, hidsRestB, idsOf_append]
            simp [idsOf, hnEid]
          rw [hshape]
          have hpm : (idsOf done ++ r0.idOf :: idsOf rest2).Perm
              (idsOf done ++ elid :: r0.idOf
                :: (idsOf rest2).erase elid) := by
            refine List.Perm.append_left _ ?_
            have hp1 : (r0.idOf :: idsOf rest2).Perm
                (r0.idOf :: elid :: (idsOf rest2).erase elid) :=
              List.Perm.cons _ (List.perm_cons_erase helid2)
            have hp2 : (r0.idOf :: elid :: (idsOf rest2).erase elid).Perm
                (elid :: r0.idOf :: (idsOf rest2).erase elid) :=
              List.Perm.swap _ _ _
            exact hp1.trans hp2
          refine hpm.nodup ?_
          have hshape2 : idsOf done ++ r0.idOf :: idsOf rest2
              = idsOf (done ++ r0 :: rest2) := by
            rw [idsOf_append]
            rfl
          rw [hshape2]
          exact hnd
        have hlenB : (r0 :: removeById
            (updateById rest2 elid (fun _ => dn2)) elid).length
            = (aremove keyed (pvalKeyStr v)).length := by
          have hl1 : (removeById
              (updateById rest2 elid (fun _ => dn2)) elid).length
              = ((idsOf rest2).erase elid).length := by
            have := congrArg List.length (hidsRestB)
            simpa [idsOf] using this
          have hl2 : ((idsOf rest2).erase elid).length
              = (idsOf rest2).length - 1 :=
            List.length_erase_of_mem helid2
          have hl3 : 0 < (idsOf rest2).length :=
            List.length_pos_of_mem helid2
          have hl4 : (idsOf rest2).length = rest2.length :=
            List.length_map _ _
          have := hlen
          simp only [List.length_cons] at this ⊢
          omega
        obtain ⟨settled2, acc2, st3, hloop, hfa, hlog3⟩ :=
          ih (aremove keyed (pvalKeyStr v)) (done ++ [nE])
            (r0 :: removeById (updateById rest2 elid (fun _ => dn2)) elid)
            st2 (acc ++ [VNode.elem tagN nprops nkids2 (some elid)])
            hperm2 hknd2 hnew2 hold2 htag2 helinj2 hndB hlenB
        refine ⟨nE :: settled2,
          VNode.elem tagN nprops nkids2 (some elid) :: acc2, st3, ?_, ?_,
          by rw [hlog3, hlog2]⟩
        · rw [keyedLoop.eq_def]
          simp only [hkoc, hlk, hpatch, Option.getD_some, VNode.elOf,
            Option.some_orElse, hcsB]
          rw [get_append_len, List.get?_cons_zero]
          simp only [Option.map_some']
          rw [if_pos (show ¬ some r0.idOf = some elid by simp [hr0A])]
          rw [hmoveB]
          have hlen1 : done.length + 1 = (done ++ [nE]).length := by
            simp
          rw [hlen1, hloop]
          simp [List.append_assoc]
        · refine List.Forall₂.cons ⟨pvalKeyStr v,
            VNode.elem tagN oprops okids (some elid), oidx, hvk, hentry,
            by simp [VNode.elOf, hnEid]⟩ ?_
          refine hfa.imp ?_
          rintro a b ⟨k2, ov2, oidx2, h1, h2, h3⟩
          exact ⟨k2, ov2, oidx2, h1, List.mem_of_mem_filter h2, h3⟩

theorem aset_fresh {β : Type} (l : List (String × β)) (k : String) (v : β)
    (h : k ∉ l.map Prod.fst) : aset l k v = l ++ [(k, v)] := by
  have hc : (l.any (fun e => e.1 = k)) = false := by
    rw [List.any_eq_false]
    intro e he hk
    exact h (List.mem_map.mpr ⟨e, he, by simpa using hk⟩)
  simp [aset, hc]

theorem foldl_aset_fresh {α β : Type} (keyF : α → String) (valF : α → β) :
    ∀ (l : List α) (acc : List (String × β)),
      (l.map keyF).Nodup →
      (∀ p ∈ l, keyF p ∉ acc.map Prod.fst) →
      l.foldl (fun m ci => aset m (keyF ci) (valF ci)) acc
        = acc ++ l.map (fun ci => (keyF ci, valF ci)) := by
  intro l
  induction l with
  | nil => intro acc _ _; simp
  | cons p rest ih =>
      intro acc hnd hdisj
      rw [List.foldl_cons,
        aset_fresh acc (keyF p) (valF p) (hdisj p (List.mem_cons_self _ _))]
      rw [List.map_cons, List.nodup_cons] at hnd
      rw [ih (acc ++ [(keyF p, valF p)]) hnd.2 ?hdisj2]
      · simp
      case hdisj2 =>
        intro q hq
        rw [List.map_append, List.mem_append]
        rintro (hin | hin)
        · exact hdisj q (List.mem_cons_of_mem _ hq) hin
        · simp only [List.map_cons, List.map_nil, List.mem_singleton] at hin
          exact hnd.1 (hin ▸ List.mem_map.mpr ⟨q, hq, rfl⟩)

theorem buildKeyedMap_eq (olds : List VNode)
    (hnd : (olds.enum.map (fun ci => keyOfChild ci.2 ci.1)).Nodup) :
    buildKeyedMap olds
      = olds.enum.map (fun ci => (keyOfChild ci.2 ci.1, ci.2, ci.1)) := by
  unfold buildKeyedMap
  have h := foldl_aset_fresh (fun ci : Nat × VNode => keyOfChild ci.2 ci.1)
    (fun ci : Nat × VNode => (ci.2, ci.1)) olds.enum [] hnd (by simp)
  simpa using h

theorem forall₂_elOf_map (olds : List VNode) (cs : List DomNode)
    (h : List.Forall₂ (fun ov d => VNode.elOf ov = some d.idOf) olds cs) :
    olds.map VNode.elOf = cs.map (fun d => some d.idOf) := by
  induction h with
  | nil => rfl
  | cons h1 h2 ih => simp [h1, ih]

/-- **C5.** For keyed children reconciliation, when the new children
list carries the same keys as the old list (in any order — e.g.
reversed), reconciliation succeeds and the live node found at each
key's new position afterwards is the *identical* node object (same node
identity) that this key's old child carried as its `el` before — moved,
not destroyed and recreated — and no cleanup hook is invoked.  Scope:
all children are keyed elements with primitive children, keys are
distinct, matching keys carry equal tags, and the old children's `el`s
are positionally the current child nodes. -/
theorem keyed_reorder_preserves_identity
    (fuel : Nat) (hfuel : 5 ≤ fuel) (st : RtState)
    (news olds : List VNode) (cs : List DomNode)
    (hnew : ∀ nc ∈ news, ∃ tag nprops nkids x v,
      nc = VNode.elem tag nprops nkids x
      ∧ nprops.lookup "key" = some v ∧ v ≠ PVal.null
      ∧ allPrim nkids = true)
    (hold : ∀ ov ∈ olds, ∃ tag oprops okids elid v,
      ov = VNode.elem tag oprops okids (some elid)
      ∧ oprops.lookup "key" = some v ∧ v ≠ PVal.null
      ∧ allPrim okids = true)
    (hcorr : List.Forall₂ (fun ov d => VNode.elOf ov = some d.idOf) olds cs)
    (hperm : (news.map vkeyD).Perm (olds.map vkeyD))
    (hkeysnd : (olds.map vkeyD).Nodup)
    (hidnd : (idsOf cs).Nodup)
    (htag : ∀ nc ∈ news, ∀ ov ∈ olds, vkey nc = vkey ov →
      elemTagOf nc = elemTagOf ov) :
    ∃ cs2 acc2 st2,
      reconcileChildren fuel st cs news olds = some (cs2, acc2, st2)
      ∧ List.Forall₂
          (fun nc d => ∃ ov ∈ olds, vkey ov = vkey nc
            ∧ VNode.elOf ov = some d.idOf) news cs2
      ∧ st2.cleanupLog = st.cleanupLog := by
  have hvkOld : ∀ ov ∈ olds, vkey ov = some (vkeyD ov)
      ∧ ∀ j, keyOfChild ov j = vkeyD ov := by
    intro ov hov
    obtain ⟨tag, op, ok, elid, v, rfl, hk, hv, hap⟩ := hold ov hov
    have h1 : vkey (VNode.elem tag op ok (some elid))
        = some (pvalKeyStr v) := by
      simp [vkey, hk, hv]
    have h2 : vkeyD (VNode.elem tag op ok (some elid)) = pvalKeyStr v := by
      simp [vkeyD, h1]
    exact ⟨by rw [h1, h2], fun j => by
      rw [h2]; exact keyOfChild_of_vkey _ _ _ h1⟩
  have henumkeys : olds.enum.map (fun ci => keyOfChild ci.2 ci.1)
      = olds.map vkeyD := by
    have hstep : olds.enum.map (fun ci => keyOfChild ci.2 ci.1)
        = olds.enum.map (fun ci => vkeyD ci.2) := by
      refine List.map_eq_map_iff.mpr ?_
      rintro ⟨i, a⟩ hci
      have hmem : a ∈ olds :=
        List.get?_mem (List.mk_mem_enum_iff_get?.mp hci)
      exact (hvkOld a hmem).2 i
    rw [hstep, show (fun ci : Nat × VNode => vkeyD ci.2)
        = vkeyD ∘ Prod.snd from rfl, ← List.map_map, List.enum_map_snd]
  cases news with
  | nil =>
      have holds0 : olds = [] := by
        have hl := hperm.length_eq
        simp only [List.map_nil, List.length_nil, List.length_map] at hl
        exact List.eq_nil_of_length_eq_zero hl.symm
      subst holds0
      have hcs0 : cs = [] :=
        List.eq_nil_of_length_eq_zero (by simpa using hcorr.length_eq.symm)
      subst hcs0
      refine ⟨[], [], st, ?_, List.Forall₂.nil, rfl⟩
      rw [reconcileChildren.eq_def]
      simp only [hasKeys, List.any_nil, Bool.or_self, Bool.not_false,
        List.length_nil, Nat.max_self, if_true]
      rw [unkeyedLoop.eq_def]
  | cons nc0 newsTail =>
      have hndenum : (olds.enum.map
          (fun ci => keyOfChild ci.2 ci.1)).Nodup := by
        rw [henumkeys]; exact hkeysnd
      have hbk := buildKeyedMap_eq olds hndenum
      have hbkkeys : (buildKeyedMap olds).map Prod.fst = olds.map vkeyD := by
        rw [hbk, List.map_map]
        exact henumkeys
      have hbkmem : ∀ en ∈ buildKeyedMap olds,
          en.2.1 ∈ olds ∧ olds.get? en.2.2 = some en.2.1
            ∧ en.1 = vkeyD en.2.1 := by
        intro en hen
        rw [hbk] at hen
        obtain ⟨⟨i, a⟩, hci, rfl⟩ := List.mem_map.mp hen
        have hget : olds.get? i = some a := List.mk_mem_enum_iff_get?.mp hci
        have hmem : a ∈ olds := List.get?_mem hget
        exact ⟨hmem, hget, (hvkOld a hmem).2 i⟩
      obtain ⟨hlenOC, hcorrI⟩ := List.forall₂_iff_get.mp hcorr
      have hold2 : ∀ en ∈ buildKeyedMap olds, ∃ tag oprops okids elid,
          en.2.1 = VNode.elem tag oprops okids (some elid)
          ∧ allPrim okids = true ∧ elid ∈ idsOf cs := by
        intro en hen
        obtain ⟨hmem, hget, hkey⟩ := hbkmem en hen
        obtain ⟨tag, op, ok, elid, v, hovE, hk, hv, hap⟩ := hold _ hmem
        refine ⟨tag, op, ok, elid, hovE, hap, ?_⟩
        obtain ⟨hilt, hgeteq⟩ := List.get?_eq_some.mp hget
        have hi2 : en.2.2 < cs.length := by omega
        have hR := hcorrI en.2.2 hilt hi2
        rw [hgeteq, hovE] at hR
        simp only [VNode.elOf] at hR
        rw [Option.some.inj hR]
        exact List.mem_map.mpr ⟨cs.get ⟨en.2.2, hi2⟩, List.get_mem _ _ _, rfl⟩
      have htag2 : ∀ nc ∈ (nc0 :: newsTail), ∀ en ∈ buildKeyedMap olds,
          vkey nc = some en.1 → elemTagOf nc = elemTagOf en.2.1 := by
        intro nc hnc en hen hv
        obtain ⟨hmem, _, hkey⟩ := hbkmem en hen
        refine htag nc hnc en.2.1 hmem ?_
        rw [hv, hkey, (hvkOld en.2.1 hmem).1]
      have helinj2 : ((buildKeyedMap olds).map
          (fun en => VNode.elOf en.2.1)).Nodup := by
        rw [hbk, List.map_map]
        rw [show ((fun en : String × VNode × Nat => VNode.elOf en.2.1) ∘
            (fun ci : Nat × VNode => (keyOfChild ci.2 ci.1, ci.2, ci.1)))
            = VNode.elOf ∘ Prod.snd from rfl,
          ← List.map_map, List.enum_map_snd]
        rw [forall₂_elOf_map olds cs hcorr]
        rw [show (fun d : DomNode => some d.idOf)
            = some ∘ DomNode.idOf from rfl, ← List.map_map]
        exact List.Nodup.map (Option.some_injective _) hidnd
      have hlen2 : cs.length = (buildKeyedMap olds).length := by
        rw [hbk, List.length_map, List.enum_length]
        exact hlenOC.symm
      have hhk : hasKeys (nc0 :: newsTail) = true := by
        obtain ⟨tag, np, nk, x, v, heq, hk, hvn, _⟩ :=
          hnew _ (List.mem_cons_self nc0 newsTail)
        have hh : vnodeHasKey nc0 = true := by
          rw [heq]
          exact vnodeHasKey_of_vkey _ (pvalKeyStr v)
            (by simp [vkey, hk, hvn])
        exact List.any_eq_true.mpr ⟨nc0, List.mem_cons_self _ _, hh⟩
      obtain ⟨settled, acc2, st2, hloop, hfa, hlog⟩ :=
        keyedLoop_reorder fuel hfuel (nc0 :: newsTail) (buildKeyedMap olds)
          [] cs st [] (by rw [hbkkeys]; exact hperm)
          (by rw [hbkkeys]; exact hkeysnd) hnew hold2 htag2 helinj2
          (by simpa using hidnd) hlen2
      simp only [List.length_nil, List.nil_append] at hloop
      refine ⟨settled, acc2, st2, ?_, ?_, hlog⟩
      · rw [reconcileChildren.eq_def]
        simp only [hhk, Bool.true_or, Bool.not_true]
        rw [if_neg (by simp)]
        rw [hloop]
        rfl
      · refine hfa.imp ?_
        rintro nc d ⟨k, ovv, oidx, hv1, hv2, hv3⟩
        have hmm := hbkmem (k, ovv, oidx) hv2
        have hmem : ovv ∈ olds := hmm.1
        have hkey2 : k = vkeyD ovv := hmm.2.2
        refine ⟨ovv, hmem, ?_, hv3⟩
        rw [(hvkOld ovv hmem).1, hv1, hkey2]

/-- Three keyed `li` items as previously rendered: keys `"1"`, `"2"`,
`"3"`, live nodes `100`, `101`, `102`. -/
def c5Olds : List VNode :=
  [ .elem "li" [("key", .str "1")] [.prim (.str "a")] (some 100),
    .elem "li" [("key", .str "2")] [.prim (.str "b")] (some 101),
    .elem "li" [("key", .str "3")] [.prim (.str "c")] (some 102) ]

/-- The same keyed items in reversed order, as freshly produced by `h`. -/
def c5News : List VNode :=
  [ .elem "li" [("key", .str "3")] [.prim (.str "c")] none,
    .elem "li" [("key", .str "2")] [.prim (.str "b")] none,
    .elem "li" [("key", .str "1")] [.prim (.str "a")] none ]

/-- The current live child nodes of the parent. -/
def c5Cs : List DomNode :=
  [ .elem 100 "li" [("key", .str "1")] [] [] [.text 110 "a"],
    .elem 101 "li" [("key", .str "2")] [] [] [.text 111 "b"],
    .elem 102 "li" [("key", .str "3")] [] [] [.text 112 "c"] ]

/-- Witness for C5: the spec's own scenario — keys `[1,2,3]` reversed to
`[3,2,1]` — at concrete inputs. -/
theorem keyed_reorder_preserves_identity_witness :
    ∃ cs2 acc2 st2,
      reconcileChildren 5 ⟨200, [], []⟩ c5Cs c5News c5Olds
        = some (cs2, acc2, st2)
      ∧ List.Forall₂
          (fun nc d => ∃ ov ∈ c5Olds, vkey ov = vkey nc
            ∧ VNode.elOf ov = some d.idOf) c5News cs2
      ∧ st2.cleanupLog = (⟨200, [], []⟩ : RtState).cleanupLog := by
  have hnew : ∀ nc ∈ c5News, ∃ tag nprops nkids x v,
      nc = VNode.elem tag nprops nkids x
      ∧ nprops.lookup "key" = some v ∧ v ≠ PVal.null
      ∧ allPrim nkids = true := by
    intro nc hnc
    simp only [c5News, List.mem_cons, List.not_mem_nil, or_false] at hnc
    rcases hnc with rfl | rfl | rfl <;>
      exact ⟨_, _, _, _, _, rfl, rfl, by decide, rfl⟩
  have holdh : ∀ ov ∈ c5Olds, ∃ tag oprops okids elid v,
      ov = VNode.elem tag oprops okids (some elid)
      ∧ oprops.lookup "key" = some v ∧ v ≠ PVal.null
      ∧ allPrim okids = true := by
    intro ov hov
    simp only [c5Olds, List.mem_cons, List.not_mem_nil, or_false] at hov
    rcases hov with rfl | rfl | rfl <;>
      exact ⟨_, _, _, _, _, rfl, rfl, by decide, rfl⟩
  have hcorr : List.Forall₂ (fun ov d => VNode.elOf ov = some d.idOf)
      c5Olds c5Cs :=
    List.Forall₂.cons rfl (List.Forall₂.cons rfl
      (List.Forall₂.cons rfl List.Forall₂.nil))
  have htagh : ∀ nc ∈ c5News, ∀ ov ∈ c5Olds, vkey nc = vkey ov →
      elemTagOf nc = elemTagOf ov := by
    intro nc hnc ov hov _
    simp only [c5News, List.mem_cons, List.not_mem_nil, or_false] at hnc
    simp only [c5Olds, List.mem_cons, List.not_mem_nil, or_false] at hov
    rcases hnc with rfl | rfl | rfl <;> rcases hov with rfl | rfl | rfl <;>
      rfl
  exact keyed_reorder_preserves_identity 5 (by decide) ⟨200, [], []⟩
    c5News c5Olds c5Cs hnew holdh hcorr (by decide) (by decide) (by decide)
    htagh

end Humn
